import Mathlib

/-!
# Verification of madmom's downbeat-tracking core (`madmom/features/downbeats.py`)

This file gives a shallow embedding, in Lean 4, of the beat-synchronous
feature aggregation and bar-position inference engine of the repository:

* `BeatSyncProcessor` (streaming and batch beat synchronisation),
* `GMMDownBeatTrackingObservationModel` (GMM observation model),
* `DBNBarTrackingProcessor` (online forward filtering / offline Viterbi
  decoding of bar positions).

Machine floats are modelled by exact rationals (`ℚ`), numpy arrays by lists,
and fallible numpy operations by `Except String`.  Parts of the repository
that are outside the provided sources (the generic HMM forward/Viterbi
routines of `madmom.ml.hmm` and the bar state spaces of
`madmom.features.beats_hmm`) are modelled from the specification; such
definitions carry a `Modelled from the spec:` doc comment.

The file is organised as: all definitions first, then the theorems.
-/

namespace Madmom

/-! ## Definitions: numpy primitives -/

/-- numpy's `np.round` (round half to even, "banker's rounding") on an exact
rational, returning an integer. -/
def npRound (q : ℚ) : ℤ :=
  let n : ℤ := ⌊q⌋
  let f : ℚ := q - n
  if f < 1/2 then n
  else if 1/2 < f then n + 1
  else if Even n then n else n + 1

/-- `np.interp` at a single query point `x`, over a list of `(xp, fp)` sample
pairs with strictly increasing `xp`: constant continuation outside the sample
range, piecewise-linear interpolation inside (result `0` on an empty sample
list; the caller models numpy's `ValueError` for that case). -/
def npInterp (x : ℚ) : List (ℚ × ℚ) → ℚ
  | [] => 0
  | [(_, f₀)] => f₀
  | (x₀, f₀) :: (x₁, f₁) :: rest =>
    if x ≤ x₀ then f₀
    else if x ≤ x₁ then f₀ + (x - x₀) * (f₁ - f₀) / (x₁ - x₀)
    else npInterp x ((x₁, f₁) :: rest)

/-! ## Definitions: `BeatSyncProcessor` (streaming) -/

/-- The per-subdivision frame counts computed by `BeatSyncProcessor` at a
beat (`downbeats.py` lines 112–114 and 139–140):
`np.diff(np.round(np.linspace(0, y, n + 1)))` where `y` is the beat
interval (seconds) times the frame rate, and `n = beat_subdivisions`.
The `i`-th entry is `round((i+1)·y/n) − round(i·y/n)`. -/
def divFramesOf (y : ℚ) (n : ℕ) : List ℤ :=
  (List.range n).map fun i : ℕ =>
    npRound (((i : ℚ) + 1) * (y / n)) - npRound ((i : ℚ) * (y / n))

/-- Mutable per-session state of `BeatSyncProcessor` in online mode
(`downbeats.py` lines 36–46).  The code's `FIXME` notes it only works for
scalar features, so `feat_sum` and each stored subdivision mean are scalars. -/
structure BSState where
  featSum : ℚ
  counter : ℕ
  currentDiv : ℕ
  divFrames : Option (List ℤ)
  lastBeat : Option ℚ
  beatFeatures : List ℚ
  deriving Repr, DecidableEq

/-- Initial `BeatSyncProcessor` state (`__init__`, lines 36–46), for
`beat_subdivisions = n` and scalar features. -/
def bsInit (n : ℕ) : BSState :=
  { featSum := 0, counter := 0, currentDiv := 0, divFrames := none,
    lastBeat := none, beatFeatures := List.replicate n 0 }

/-- Truthiness test `beat.any()` used on the incoming beat value
(line 96): the empty array (`none`) and the scalar `0.0` are both falsy. -/
def beatAny : Option ℚ → Bool
  | none => false
  | some t => decide (t ≠ 0)

/-- Whether the current frame closes a beat subdivision
(`is_end_div`, line 124): the incremented frame counter has reached the
current subdivision's allotted length. -/
def bsIsEndDiv (s : BSState) : Bool :=
  decide ((((s.counter + 1 : ℕ)) : ℤ) ≥ (s.divFrames.getD []).getD s.currentDiv 0)

/-- The subdivision index written by the current frame, if any: on a frame
that closes a subdivision, the mean is stored at `current_div`
(lines 125–133). -/
def bsStores (s : BSState) : Option ℕ :=
  if bsIsEndDiv s then some s.currentDiv else none

/-- One frame of `BeatSyncProcessor.process_online` (lines 75–156).
Input: the frame's `(beat, feature)` pair (`none` models the empty beat
array); output: the successor state and the returned
`(beat_time, beat_feat)` pair, where `none` models an empty return. -/
def bsStep (n : ℕ) (fps : ℚ) (offset : ℕ) (s : BSState)
    (beat : Option ℚ) (feature : ℚ) : BSState × Option ℚ × Option (List ℚ) :=
  match s.lastBeat with
  | none =>
    -- init before first beat (lines 100–105)
    if beatAny beat then ({ s with lastBeat := beat }, none, none)
    else (s, none, none)
  | some lb =>
    match s.divFrames with
    | none =>
      -- init before second beat (lines 108–117)
      if beatAny beat then
        ({ s with divFrames := some (divFramesOf ((beat.getD 0 - lb) * fps) n),
                  lastBeat := beat }, none, none)
      else (s, none, none)
    | some df =>
      -- normal action (lines 119–156)
      let featSum₁ := s.featSum + feature
      let counter₁ := s.counter + 1
      let isEnd := decide ((counter₁ : ℤ) ≥ df.getD s.currentDiv 0)
      let bf₁ := if isEnd then
          s.beatFeatures.set s.currentDiv (featSum₁ / counter₁)
        else s.beatFeatures
      let currentDiv₁ := if isEnd then (s.currentDiv + 1) % n else s.currentDiv
      let featSum₂ := if isEnd then 0 else featSum₁
      let counter₂ := if isEnd then 0 else counter₁
      if beatAny beat then
        let b := beat.getD 0
        let featSum₃ := if counter₂ > offset then
            featSum₂ * offset / counter₂
          else bf₁.getLastD 0 * offset
        ({ featSum := featSum₃, counter := offset, currentDiv := 0,
           divFrames := some (divFramesOf ((b - lb) * fps) n),
           lastBeat := some b,
           beatFeatures := List.replicate n 0 }, beat, some bf₁)
      else
        ({ s with featSum := featSum₂, counter := counter₂,
                  currentDiv := currentDiv₁, beatFeatures := bf₁ }, beat, none)

/-- Fold `bsStep` over a list of `(beat, feature)` frames, collecting the
per-frame outputs. -/
def bsRun (n : ℕ) (fps : ℚ) (offset : ℕ) (s : BSState) :
    List (Option ℚ × ℚ) → BSState × List (Option ℚ × Option (List ℚ))
  | [] => (s, [])
  | (beat, feature) :: rest =>
    let r := bsStep n fps offset s beat feature
    let rr := bsRun n fps offset r.1 rest
    (rr.1, r.2 :: rr.2)

/-! ## Definitions: `BeatSyncProcessor` (batch) -/

/-- Per-feature-dimension means of a group of feature frames, as computed by
`np.mean(x, axis=0)` over the frames of one subdivision bin (each frame a
vector of `featDim` values). -/
def colMeans (featDim : ℕ) (frames : List (List ℚ)) : List ℚ :=
  (List.range featDim).map fun d =>
    (frames.map fun fr => fr.getD d 0).sum / (frames.length : ℚ)

/-- `BeatSyncProcessor.interpolate_missing` (lines 240–256).  Bins with at
least one frame keep their frames; an empty bin is replaced by one synthetic
frame whose value in each dimension is `np.interp` of the bin index over the
supported bins' indices and per-dimension means.  If there is no supported
bin at all, `np.interp` is called with an empty list of sample points and
raises a `ValueError`, modelled by `.error`. -/
def interpolateMissing (n featDim : ℕ) (feats : List (List (List ℚ))) :
    Except String (List (List (List ℚ))) :=
  let goodRows := (List.range feats.length).filter fun r => feats.getD r [] ≠ []
  if goodRows.length < n then
    if goodRows = [] ∧ 0 < featDim then
      .error "ValueError: array of sample points is empty"
    else
      .ok ((List.range feats.length).map fun r =>
        if feats.getD r [] = [] then
          [(List.range featDim).map fun d =>
            npInterp (r : ℚ) (goodRows.map fun g : ℕ =>
              ((g : ℚ), (colMeans featDim (feats.getD g [])).getD d 0))]
        else feats.getD r [])
  else .ok feats

/-- The `while` loop of `BeatSyncProcessor.process_offline` (lines 188–190),
on the reversed beat list: while the feature duration is shorter than the
last beat time, drop the last beat.  When every beat has been dropped, the
loop condition indexes `beats[-1, 0]` of an empty array, an `IndexError`. -/
def bsTrimLoop (dur : ℚ) : List ℚ → Except String (List ℚ)
  | [] => .error "IndexError: index -1 is out of bounds for axis 0 with size 0"
  | b :: rest => if dur < b then bsTrimLoop dur rest else .ok (b :: rest)

/-- Entry to `BeatSyncProcessor.process_offline` up to the trimming loop
(lines 180–190): an empty beat sequence returns immediately; otherwise
trailing beats later than `len(features) / fps` are dropped (each with a
non-fatal `warnings.warn` diagnostic, not modelled). -/
def bsTrimBeats (fps : ℚ) (numFrames : ℕ) (beats : List ℚ) :
    Except String (List ℚ) :=
  if beats = [] then .ok []
  else (bsTrimLoop ((numFrames : ℚ) / fps) beats.reverse).map List.reverse

/-! ## Definitions: observation model (`GMMDownBeatTrackingObservationModel`) -/

/-- A numpy ndarray of rationals: a shape and the row-major flattened data.
`ndim` is the length of the shape. -/
structure NpArray where
  shape : List ℕ
  data : List ℚ

/-- An opaque fitted Gaussian Mixture Model, as loaded from the pattern
files: a fixed input dimensionality and a log-density score function.
The repository treats these as pretrained black boxes (`gmms[p][k][bd]`);
calling `score` on a vector of the wrong length is a shape error, which the
embedding checks explicitly. -/
structure GmmModel where
  dim : ℕ
  score : List ℚ → ℚ

instance : Inhabited GmmModel := ⟨⟨0, fun _ => 0⟩⟩

/-- The feature vector of beat `b`, subdivision `bd` in a rank-3 observation
array of shape `[nb, ns, fd]` (the slice
`np.squeeze(observations[:, [bd], :], axis=1)` row `b`). -/
def featVec (a : NpArray) (ns fd b bd : ℕ) : List ℚ :=
  (List.range fd).map fun d => a.data.getD ((b * ns + bd) * fd + d) 0

/-- One column of the log-density table (lines 746–752): starting from zero,
add, for each beat division `bd`, the GMM's score on every beat's
subdivision-`bd` feature vector.  Accessing a division beyond the
observation array's subdivision axis is an `IndexError`, and scoring a
feature vector whose length differs from the GMM's dimensionality is the
library's shape `ValueError`. -/
def colScoresAux (a : NpArray) (ns fd nb : ℕ) :
    List GmmModel → ℕ → Except String (List ℚ)
  | [], _ => .ok (List.replicate nb 0)
  | g :: rest, bd =>
    if bd < ns then
      if fd = g.dim then
        match colScoresAux a ns fd nb rest (bd + 1) with
        | .ok tail => .ok ((List.range nb).map fun b =>
            g.score (featVec a ns fd b bd) + tail.getD b 0)
        | .error e => .error e
      else .error "ValueError: X has a different number of features than the fitted model"
    else .error "IndexError: index out of bounds for axis 1"

/-- All columns of the log-density table, one per stacked density model
(the `c` loop of lines 744–752). -/
def allCols (a : NpArray) (ns fd nb : ℕ) :
    List (List GmmModel) → Except String (List (List ℚ))
  | [] => .ok []
  | col :: rest => do
    let v ← colScoresAux a ns fd nb col 0
    let vs ← allCols a ns fd nb rest
    pure (v :: vs)

/-- `GMMDownBeatTrackingObservationModel.log_densities` (lines 721–754),
returned column-wise: entry `b` of column `c` is the log density of beat `b`
under the `c`-th stacked density model (the returned numpy matrix is the
transpose, `[n_beats, n_states]`).  A non-rank-3 input is rejected up front
with the shape `ValueError` of lines 731–733. -/
def logDensitiesCols (gmms : List (List (List GmmModel))) (a : NpArray) :
    Except String (List (List ℚ)) :=
  match a.shape with
  | [nb, ns, fd] => allCols a ns fd nb gmms.flatten
  | _ => .error "ValueError: Got observations shape, expected (n_beats, n_subdivisions, feat_dim)"

/-! ## Definitions: bar state space and pointers -/

/-- Modelled from the spec: the bar-position of every global state of
`MultiPatternStateSpace` (`madmom.features.beats_hmm`, not under `src/`) —
for each pattern `p` with `beats_per_bar[p] = B`, the `B` consecutive global
states carry positions `0 .. B-1`, patterns concatenated in order. -/
def statePositions (bpb : List ℕ) : List ℕ :=
  (bpb.map List.range).flatten

/-- Modelled from the spec: the pattern index of every global state — the
states of pattern `p` occupy `beats_per_bar[p]` consecutive slots, in
pattern order (the first pattern's states carry pattern index 0, and every
later pattern's indices are one larger than in the tail enumeration). -/
def statePatterns : List ℕ → List ℕ
  | [] => []
  | b :: rest => List.replicate b 0 ++ (statePatterns rest).map (· + 1)

/-- Total number of hidden states: `Σ beats_per_bar[pattern]`. -/
def numStates (bpb : List ℕ) : ℕ := bpb.sum

/-- The running offset `densities_idx_offset` of
`GMMDownBeatTrackingObservationModel.__init__` (lines 705–717) when pattern
`p` is reached: the total number of per-beat density models of all patterns
preceding `p` (the patterns' density lists stacked in order). -/
def densitiesIdxOffset (gmms : List (List (List GmmModel))) (p : ℕ) : ℕ :=
  ((gmms.take p).map List.length).sum

/-- The density-table pointers computed by
`GMMDownBeatTrackingObservationModel.__init__` (lines 698–719): each state's
pointer is its bar position plus the density offset of its pattern. -/
def gmmPointers (gmms : List (List (List GmmModel))) (bpb : List ℕ) : List ℕ :=
  ((statePatterns bpb).zip (statePositions bpb)).map fun pk =>
    pk.2 + densitiesIdxOffset gmms pk.1

/-! ## Definitions: inference engine -/

/-- `np.argmax` over a list: the index of the first occurrence of the
maximal value (`0` on the empty list). -/
def npArgmax : List ℚ → ℕ
  | [] => 0
  | [_] => 0
  | x :: y :: rest =>
    let j := npArgmax (y :: rest)
    if (y :: rest).getD j 0 > x then j + 1 else 0

/-- Modelled from the spec: the transition model of
`DBNBarTrackingProcessor` for the default `pattern_change_prob = 0`
(`BarTransitionModel` with `min_interval = max_interval = 1` under
`MultiPatternTransitionModel`, `madmom.features.beats_hmm`, not under
`src/`): from state `(p, k)` the next beat's state is
`(p, (k+1) mod beats_per_bar[p])` with probability 1. -/
def cycleTrans (bpb : List ℕ) (s s' : ℕ) : ℚ :=
  if (statePatterns bpb).getD s' 0 = (statePatterns bpb).getD s 0 ∧
     (statePositions bpb).getD s' 0 =
       ((statePositions bpb).getD s 0 + 1) % bpb.getD ((statePatterns bpb).getD s 0) 1
  then 1 else 0

/-- The uniform initial state distribution (`HiddenMarkovModel` is built
with `initial_distribution = None`, line 446). -/
def uniformInit (nst : ℕ) : List ℚ := List.replicate nst (1 / (nst : ℚ))

/-- Modelled from the spec: one step of streaming forward filtering
(`HiddenMarkovModel.forward`, `madmom.ml.hmm`, not under `src/`): a
transition step followed by an observation reweighting, rescaled to sum 1
("the forward vector must be renormalized every step"). -/
def hmmForwardStep (nst : ℕ) (trans : ℕ → ℕ → ℚ) (olik : List ℚ)
    (prev : List ℚ) : List ℚ :=
  let unnorm := (List.range nst).map fun s =>
    olik.getD s 0 * ((List.range nst).map fun t => prev.getD t 0 * trans t s).sum
  unnorm.map fun v => v / unnorm.sum

/-- The sequence of forward vectors produced by repeated
`hmmForwardStep` calls, one per observation. -/
def hmmForwardTrace (nst : ℕ) (trans : ℕ → ℕ → ℚ) (prev : List ℚ) :
    List (List ℚ) → List (List ℚ)
  | [] => []
  | o :: os =>
    let f := hmmForwardStep nst trans o prev
    f :: hmmForwardTrace nst trans f os

/-- All state sequences of a given length over `nst` states. -/
def allPaths (nst : ℕ) : ℕ → List (List ℕ)
  | 0 => [[]]
  | T + 1 => ((List.range nst).map fun s => (allPaths nst T).map (s :: ·)).flatten

/-- The probability contribution of a path continuation starting after state
`s` at time `t`: product of transition and observation factors. -/
def chainProb (trans : ℕ → ℕ → ℚ) (oliks : List (List ℚ)) :
    ℕ → ℕ → List ℕ → ℚ
  | _, _, [] => 1
  | t, s, s' :: rest =>
    trans s s' * (oliks.getD t []).getD s' 0 * chainProb trans oliks (t + 1) s' rest

/-- The probability of a full hidden-state path given all observations:
initial probability times observation factor for the first state, then
transition·observation factors for the rest. -/
def pathProb (trans : ℕ → ℕ → ℚ) (init : List ℚ) (oliks : List (List ℚ)) :
    List ℕ → ℚ
  | [] => 1
  | s :: rest => init.getD s 0 * (oliks.getD 0 []).getD s 0 *
      chainProb trans oliks 1 s rest

/-- The first element of a list attaining the maximal value of `f`. -/
def argmaxBy {α : Type} (f : α → ℚ) : List α → Option α
  | [] => none
  | a :: rest =>
    match argmaxBy f rest with
    | none => some a
    | some b => if f b > f a then some b else some a

/-- Modelled from the spec: exact maximum-probability path decoding
(`HiddenMarkovModel.viterbi`, `madmom.ml.hmm`, not under `src/`): the
hidden-state path of maximal probability given all observations, with
uniform initial distribution. -/
def hmmViterbi (nst : ℕ) (trans : ℕ → ℕ → ℚ) (oliks : List (List ℚ)) :
    List ℕ :=
  (argmaxBy (pathProb trans (uniformInit nst) oliks) (allPaths nst oliks.length)).getD []

/-! ## Definitions: `DBNBarTrackingProcessor` -/

/-- The decoding step of `DBNBarTrackingProcessor.process_offline`
(lines 513–519): each path state is decoded to beat number `position + 1`,
and one extra final beat is appended whose number wraps the last decoded
number with the last state's pattern's beats-per-bar
(`np.mod(beat_numbers[-1], beats_per_bar[patterns[path[-1]]]) + 1`). -/
def beatNumbersOffline (bpb : List ℕ) (path : List ℕ) : List ℕ :=
  let nums := path.map fun st => (statePositions bpb).getD st 0 + 1
  nums ++ [nums.getLastD 0 % bpb.getD ((statePatterns bpb).getD (path.getLastD 0) 0) 1 + 1]

/-- `DBNBarTrackingProcessor.process_offline` (lines 507–524) at the level
of beat numbers: Viterbi-decode the state path from the per-beat state
likelihoods, then decode each state to its beat number and append the
extrapolated final beat. -/
def dbnOfflineBeatNumbers (bpb : List ℕ) (trans : ℕ → ℕ → ℚ)
    (oliks : List (List ℚ)) : List ℕ :=
  beatNumbersOffline bpb (hmmViterbi (numStates bpb) trans oliks)

/-- Per-session mutable state of `DBNBarTrackingProcessor` in online mode:
the step counter (initialised to `-1`, line 450) and the HMM's forward
vector. -/
structure DBNState where
  counter : ℤ
  fwd : List ℚ

/-- Initial online tracking state: counter `-1`, forward vector uniform. -/
def dbnInit (nst : ℕ) : DBNState :=
  { counter := -1, fwd := uniformInit nst }

/-- `DBNBarTrackingProcessor.process_online` (lines 477–505).  `om` maps a
synchronized feature vector to the per-state observation likelihoods (the
observation model inside `self.hmm`).  If the activation is all zero
(`activation.any()` falsy) the HMM is not advanced and nothing is emitted;
otherwise one forward step is taken, the most probable state is decoded to
`[beat_time?, beat_number, pattern?]`. -/
def dbnOnlineStep (nst : ℕ) (trans : ℕ → ℕ → ℚ) (om : List ℚ → List ℚ)
    (bpb : List ℕ) (bump returnPattern : Bool) (st : DBNState)
    (beat : Option ℚ) (activation : List ℚ) : DBNState × Option (List ℚ) :=
  let counter' := st.counter + 1
  if activation.any fun x => decide (x ≠ 0) then
    let fwd' := hmmForwardStep nst trans (om activation) st.fwd
    let state := npArgmax fwd'
    let position := (statePositions bpb).getD state 0
    let pattern := (statePatterns bpb).getD state 0
    let beatNumber := if bump then (position + 1) % bpb.getD pattern 1 + 1
      else position + 1
    let record := (match beat with | none => [] | some t => [t]) ++
      [(beatNumber : ℚ)] ++ (if returnPattern then [(pattern : ℚ)] else [])
    ({ counter := counter', fwd := fwd' }, some record)
  else ({ st with counter := counter' }, none)

/-- Fold `dbnOnlineStep` over a list of `(beat, activation)` inputs,
collecting the per-step outputs. -/
def dbnOnlineRun (nst : ℕ) (trans : ℕ → ℕ → ℚ) (om : List ℚ → List ℚ)
    (bpb : List ℕ) (bump returnPattern : Bool) (st : DBNState) :
    List (Option ℚ × List ℚ) → DBNState × List (Option (List ℚ))
  | [] => (st, [])
  | (beat, act) :: rest =>
    let r := dbnOnlineStep nst trans om bpb bump returnPattern st beat act
    let rr := dbnOnlineRun nst trans om bpb bump returnPattern r.1 rest
    (rr.1, r.2 :: rr.2)

/-- A concrete one-dimensional density model used to exercise the
observation model on explicit inputs: its score is the sum of the feature
vector's entries. -/
def exampleGmm : GmmModel :=
  { dim := 1, score := fun v => v.sum }

/-- The state path that follows the deterministic bar cycle of a single
pattern with `B` positions, starting from position `x mod B`: entry `t` is
`(x + t) mod B`. -/
def cyclePath (B x : ℕ) : ℕ → List ℕ
  | 0 => []
  | T + 1 => x % B :: cyclePath B (x + 1) T

/-- The product of the observation likelihoods collected along the bar cycle
started at position `r`, over steps `t, …, t + m - 1`. -/
def obsProd (oliks : List (List ℚ)) (B r t m : ℕ) : ℚ :=
  ((List.range m).map fun j =>
    (oliks.getD (t + j) []).getD ((r + (t + j)) % B) 0).prod

end Madmom

namespace Madmom

/-! ## Theorems: rounding and subdivision lengths -/

theorem npRound_intCast (m : ℤ) : npRound (m : ℚ) = m := by
  simp [npRound]

/-- `np.round` is within 1/2 of its argument. -/
theorem abs_npRound_sub_le (q : ℚ) : |(npRound q : ℚ) - q| ≤ 1/2 := by
  unfold npRound
  have h0 : (0 : ℚ) ≤ q - ⌊q⌋ := by
    have := Int.floor_le q
    linarith
  have h1 : q - ⌊q⌋ < 1 := by
    have := Int.lt_floor_add_one q
    linarith
  by_cases hlt : q - (⌊q⌋ : ℚ) < 1/2
  · simp only [hlt, if_true]
    rw [abs_le]
    constructor <;> linarith
  · by_cases hgt : (1:ℚ)/2 < q - (⌊q⌋ : ℚ)
    · simp only [hlt, hgt, if_false, if_true]
      rw [abs_le]
      push_cast
      constructor <;> linarith
    · have heq : q - (⌊q⌋ : ℚ) = 1/2 := le_antisymm (not_lt.mp hgt) (not_lt.mp hlt)
      by_cases hev : Even ⌊q⌋
      · simp only [hlt, hgt, hev, if_false, if_true]
        rw [abs_le]
        constructor <;> linarith
      · simp only [hlt, hgt, hev, if_false]
        rw [abs_le]
        push_cast
        constructor <;> linarith

theorem divFramesOf_length (y : ℚ) (n : ℕ) : (divFramesOf y n).length = n := by
  unfold divFramesOf
  rw [List.length_map, List.length_range]

/-- Every subdivision length lies within 1 frame of the exact value `y / n`. -/
theorem divFramesOf_mem_close (y : ℚ) (n : ℕ) (d : ℤ)
    (hd : d ∈ divFramesOf y n) : |(d : ℚ) - y / n| ≤ 1 := by
  simp only [divFramesOf, List.mem_map, List.mem_range] at hd
  obtain ⟨i, _, rfl⟩ := hd
  have h1 := abs_npRound_sub_le (((i : ℚ) + 1) * (y / n))
  have h2 := abs_npRound_sub_le ((i : ℚ) * (y / n))
  rw [abs_le] at h1 h2 ⊢
  obtain ⟨h1l, h1r⟩ := h1
  obtain ⟨h2l, h2r⟩ := h2
  push_cast
  constructor <;> nlinarith [h1l, h1r, h2l, h2r]

/-- If `y / n` is not an integer, every subdivision length is `⌊y/n⌋` or
`⌊y/n⌋ + 1`. -/
theorem divFramesOf_mem_floor_or (y : ℚ) (n : ℕ) (d : ℤ)
    (hx : ¬ ∃ m : ℤ, y / n = (m : ℚ)) (hd : d ∈ divFramesOf y n) :
    d = ⌊y / n⌋ ∨ d = ⌊y / n⌋ + 1 := by
  have hclose := divFramesOf_mem_close y n d hd
  rw [abs_le] at hclose
  obtain ⟨hl, hr⟩ := hclose
  set x : ℚ := y / n with hxdef
  have hfl : (⌊x⌋ : ℚ) ≤ x := Int.floor_le x
  have hfu : x < (⌊x⌋ : ℚ) + 1 := Int.lt_floor_add_one x
  have hne : (⌊x⌋ : ℚ) ≠ x := by
    intro h
    exact hx ⟨⌊x⌋, h.symm⟩
  have hflt : (⌊x⌋ : ℚ) < x := lt_of_le_of_ne hfl hne
  have hdl : (⌊x⌋ : ℚ) - 1 < (d : ℚ) := by linarith
  have hdu : (d : ℚ) < (⌊x⌋ : ℚ) + 2 := by linarith
  have hdl' : ⌊x⌋ - 1 < d := by exact_mod_cast hdl
  have hdu' : d < ⌊x⌋ + 2 := by exact_mod_cast hdu
  omega

/-- If `y / n` is an integer `m`, every subdivision length equals `m`. -/
theorem divFramesOf_mem_int (y : ℚ) (n : ℕ) (m : ℤ) (hx : y / n = (m : ℚ))
    (d : ℤ) (hd : d ∈ divFramesOf y n) : d = m := by
  simp only [divFramesOf, List.mem_map, List.mem_range] at hd
  obtain ⟨i, _, rfl⟩ := hd
  have e1 : ((i : ℚ) + 1) * (y / n) = ((((i : ℤ) + 1) * m : ℤ) : ℚ) := by
    rw [hx]; push_cast; ring
  have e2 : (i : ℚ) * (y / n) = (((i : ℤ) * m : ℤ) : ℚ) := by
    rw [hx]; push_cast; ring
  rw [e1, e2, npRound_intCast, npRound_intCast]
  ring

/-- Any two entries of `divFramesOf y n` differ by at most one frame. -/
theorem divFramesOf_pairwise_le_one (y : ℚ) (n : ℕ) (d₁ d₂ : ℤ)
    (h₁ : d₁ ∈ divFramesOf y n) (h₂ : d₂ ∈ divFramesOf y n) :
    |d₁ - d₂| ≤ 1 := by
  by_cases hx : ∃ m : ℤ, y / n = (m : ℚ)
  · obtain ⟨m, hm⟩ := hx
    rw [divFramesOf_mem_int y n m hm d₁ h₁, divFramesOf_mem_int y n m hm d₂ h₂]
    simp
  · rcases divFramesOf_mem_floor_or y n d₁ hx h₁ with e1 | e1 <;>
      rcases divFramesOf_mem_floor_or y n d₂ hx h₂ with e2 | e2 <;>
      rw [e1, e2] <;> simp

/-! ## Theorems: list helpers -/

theorem getD_map_range {α : Type} (f : ℕ → α) (n i : ℕ) (d : α) (h : i < n) :
    ((List.range n).map f).getD i d = f i := by
  rw [List.getD_eq_getElem?_getD, List.getElem?_map, List.getElem?_range h]
  rfl

theorem getD_set_ne {α : Type} (l : List α) (i j : ℕ) (v d : α) (h : i ≠ j) :
    (l.set i v).getD j d = l.getD j d := by
  rw [List.getD_eq_getElem?_getD, List.getD_eq_getElem?_getD,
    List.getElem?_set_ne h]

theorem length_filter_lt {α : Type} (p : α → Bool) (l : List α) (a : α)
    (ha : a ∈ l) (hpa : p a = false) : (l.filter p).length < l.length := by
  induction l with
  | nil => cases ha
  | cons b tl ih =>
    rcases List.mem_cons.mp ha with rfl | ha'
    · rw [List.filter_cons, hpa]
      exact Nat.lt_succ_of_le (List.length_filter_le p tl)
    · rw [List.filter_cons]
      cases hpb : p b with
      | false => exact Nat.lt_succ_of_lt (ih ha')
      | true => simpa using Nat.succ_lt_succ (ih ha')

/-- `np.interp` inside the sample range: if the query point `x` lies strictly
after node `a` and at or before the next node `b`, the result is the
two-point linear interpolation between `(a, fa)` and `(b, fb)`. -/
theorem npInterp_cell (x a b fa fb : ℚ) (pre suf : List (ℚ × ℚ))
    (hpre : ∀ p ∈ pre, p.1 < x) (ha : a < x) (hb : x ≤ b) :
    npInterp x (pre ++ (a, fa) :: (b, fb) :: suf) =
      fa + (x - a) * (fb - fa) / (b - a) := by
  induction pre with
  | nil =>
    simp only [List.nil_append, npInterp]
    rw [if_neg (not_le.mpr ha), if_pos hb]
  | cons hd tl ih =>
    have hhd : hd.1 < x := hpre hd (List.mem_cons_self hd tl)
    have htl : ∀ p ∈ tl, p.1 < x := fun p hp => hpre p (List.mem_cons_of_mem _ hp)
    obtain ⟨c, fc⟩ := hd
    cases tl with
    | nil =>
      simp only [List.cons_append, List.nil_append, npInterp]
      rw [if_neg (not_le.mpr hhd), if_neg (not_le.mpr ha)]
      simpa using ih htl
    | cons q tl' =>
      obtain ⟨e, fe⟩ := q
      have he : e < x := (htl (e, fe) (List.mem_cons_self _ _))
      simp only [List.cons_append, npInterp]
      rw [if_neg (not_le.mpr hhd), if_neg (not_le.mpr he)]
      simpa using ih htl

/-! ## Theorems: `bsStep` branch characterizations -/

/-- In the normal phase, a non-beat frame accumulates the feature and, when a
subdivision boundary is reached, stores its mean and advances the window. -/
theorem bsStep_normal (n : ℕ) (fps : ℚ) (offset : ℕ) (s : BSState)
    (beat : Option ℚ) (f lb : ℚ) (df : List ℤ) (hlb : s.lastBeat = some lb)
    (hdf : s.divFrames = some df) (hba : beatAny beat = false) :
    bsStep n fps offset s beat f =
      ({ s with
          featSum := if bsIsEndDiv s then 0 else s.featSum + f,
          counter := if bsIsEndDiv s then 0 else s.counter + 1,
          currentDiv := if bsIsEndDiv s then (s.currentDiv + 1) % n
            else s.currentDiv,
          beatFeatures := if bsIsEndDiv s then
              s.beatFeatures.set s.currentDiv
                ((s.featSum + f) / ((s.counter + 1 : ℕ) : ℚ))
            else s.beatFeatures }, beat, none) := by
  rw [bsIsEndDiv, hdf]
  cases hend : decide ((((s.counter + 1 : ℕ)) : ℤ) ≥ df.getD s.currentDiv 0) with
  | true =>
    rw [decide_eq_true_eq] at hend
    simp [bsStep, hlb, hdf, hba, hend]
  | false =>
    rw [decide_eq_false_iff_not] at hend
    simp [bsStep, hlb, hdf, hba, hend]

/-- In the normal phase, a beat frame emits the accumulated buffer (with the
current subdivision's mean stored first if this very frame closes it),
recomputes the subdivision lengths, and resets the buffer to zeros. -/
theorem bsStep_beat (n : ℕ) (fps : ℚ) (offset : ℕ) (s : BSState)
    (beat : Option ℚ) (f lb : ℚ) (df : List ℤ) (hlb : s.lastBeat = some lb)
    (hdf : s.divFrames = some df) (hba : beatAny beat = true) :
    bsStep n fps offset s beat f =
      (let bf₁ := if bsIsEndDiv s then
          s.beatFeatures.set s.currentDiv
            ((s.featSum + f) / ((s.counter + 1 : ℕ) : ℚ))
        else s.beatFeatures
      let counter₂ : ℕ := if bsIsEndDiv s then 0 else s.counter + 1
      let featSum₂ : ℚ := if bsIsEndDiv s then 0 else s.featSum + f
      let featSum₃ : ℚ := if counter₂ > offset then featSum₂ * offset / counter₂
        else bf₁.getLastD 0 * offset
      ({ featSum := featSum₃,
         counter := offset, currentDiv := 0,
         divFrames := some (divFramesOf ((beat.getD 0 - lb) * fps) n),
         lastBeat := some (beat.getD 0),
         beatFeatures := List.replicate n 0 }, beat, some bf₁)) := by
  rw [bsIsEndDiv, hdf]
  cases hend : decide ((((s.counter + 1 : ℕ)) : ℤ) ≥ df.getD s.currentDiv 0) with
  | true =>
    rw [decide_eq_true_eq] at hend
    simp [bsStep, hlb, hdf, hba, hend]
  | false =>
    rw [decide_eq_false_iff_not] at hend
    simp [bsStep, hlb, hdf, hba, hend]

/-! ## Theorem C4: missing bins are linearly interpolated -/

/-- **C4.** In batch synchronization, a subdivision bin with no frames (but
with at least one supported bin in the same beat) is filled, independently
for each feature dimension, by `np.interp` of the bin index over the
supported bins' indices and means; in the claim's shape — `n = 4`, bin 1
empty, bins 0, 2, 3 supported — the bin-1 value is the two-point linear
interpolation between the bin-0 and bin-2 means, `(m₀ + m₂) / 2`. -/
theorem c4_missing_bin_linear_interpolation :
    (∀ (n featDim : ℕ) (feats : List (List (List ℚ))) (r : ℕ),
      feats.length = n → r < n → feats.getD r [] = [] →
      (∃ g, g < n ∧ feats.getD g [] ≠ []) →
      ∃ out, interpolateMissing n featDim feats = .ok out ∧
        out.getD r [] = [(List.range featDim).map fun d =>
          npInterp (r : ℚ)
            (((List.range n).filter fun g => feats.getD g [] ≠ []).map
              fun g : ℕ =>
                ((g : ℚ), (colMeans featDim (feats.getD g [])).getD d 0))]) ∧
    (∀ (featDim : ℕ) (u v w : List (List ℚ)), u ≠ [] → v ≠ [] → w ≠ [] →
      interpolateMissing 4 featDim [u, [], v, w] =
        .ok [u,
          [(List.range featDim).map fun d =>
            ((colMeans featDim u).getD d 0 + (colMeans featDim v).getD d 0) / 2],
          v, w]) := by
  constructor
  · intro n featDim feats r hlen hr hempty hgood
    subst hlen
    obtain ⟨g, hg, hgne⟩ := hgood
    have hmemg : g ∈ (List.range feats.length).filter fun g =>
        decide (feats.getD g [] ≠ []) :=
      List.mem_filter.mpr ⟨List.mem_range.mpr hg, by simpa using hgne⟩
    have hlt : ((List.range feats.length).filter fun g =>
        decide (feats.getD g [] ≠ [])).length < feats.length := by
      have := length_filter_lt (fun g => decide (feats.getD g [] ≠ []))
        (List.range feats.length) r (List.mem_range.mpr hr) (by simpa using hempty)
      simpa using this
    have hne : ((List.range feats.length).filter fun g =>
        decide (feats.getD g [] ≠ [])) ≠ [] := List.ne_nil_of_mem hmemg
    refine ⟨(List.range feats.length).map fun r =>
        if feats.getD r [] = [] then
          [(List.range featDim).map fun d =>
            npInterp (r : ℚ)
              (((List.range feats.length).filter fun g =>
                  feats.getD g [] ≠ []).map fun g : ℕ =>
                ((g : ℚ), (colMeans featDim (feats.getD g [])).getD d 0))]
        else feats.getD r [], ?_, ?_⟩
    · simp only [interpolateMissing]
      rw [if_pos hlt, if_neg fun hand => hne hand.1]
    · rw [getD_map_range _ _ _ _ hr, if_pos hempty]
  · intro featDim u v w hu hv hw
    have h4 : ([u, [], v, w] : List (List (List ℚ))).length = 4 := rfl
    have hfil : ((List.range 4).filter fun g =>
        decide (([u, [], v, w] : List (List (List ℚ))).getD g [] ≠ [])) =
        [0, 2, 3] := by
      simp [List.range_succ, List.filter, hu, hv, hw]
    have hcell : ∀ d : ℕ,
        npInterp 1 [((0 : ℚ), (colMeans featDim u)[d]?.getD 0),
          ((2 : ℚ), (colMeans featDim v)[d]?.getD 0),
          ((3 : ℚ), (colMeans featDim w)[d]?.getD 0)] =
          ((colMeans featDim u)[d]?.getD 0 + (colMeans featDim v)[d]?.getD 0) / 2 := by
      intro d
      have := npInterp_cell 1 0 2 ((colMeans featDim u)[d]?.getD 0)
        ((colMeans featDim v)[d]?.getD 0) []
        [((3 : ℚ), (colMeans featDim w)[d]?.getD 0)] (by simp) (by norm_num)
        (by norm_num)
      rw [List.nil_append] at this
      rw [this]
      ring
    simp only [interpolateMissing, h4, hfil]
    rw [if_pos (by norm_num), if_neg (by simp)]
    norm_num [List.range_succ, hu, hv, hw, hcell]

/-- Witness for C4: bin means `[1, 3, 4]` at positions `[0, 2, 3]` give an
interpolated bin-1 value of exactly 2. -/
theorem c4_witness :
    interpolateMissing 4 1 [[[1]], [], [[3]], [[4]]] =
      .ok [[[1]],
        [(List.range 1).map fun d =>
          ((colMeans 1 [[1]]).getD d 0 + (colMeans 1 [[3]]).getD d 0) / 2],
        [[3]], [[4]]] :=
  c4_missing_bin_linear_interpolation.2 1 [[1]] [[3]] [[4]]
    (by decide) (by decide) (by decide)

/-! ## Theorem C5: streaming subdivision lengths -/

/-- **C5.** In streaming synchronization, at the second and every subsequent
beat, `BeatSyncProcessor` recomputes the per-subdivision frame counts from
the just-observed inter-beat interval and the frame rate by evenly
partitioning the interval in time and rounding the partition boundaries
(`np.diff(np.round(np.linspace(0, interval·fps, n+1)))`); consequently any
two of a beat's `n` subdivision lengths differ by at most one frame. -/
theorem c5_div_frames_recomputed_each_beat :
    (∀ (n : ℕ) (fps : ℚ) (offset : ℕ) (s : BSState) (b lb feature : ℚ),
      s.lastBeat = some lb → b ≠ 0 →
      (bsStep n fps offset s (some b) feature).1.divFrames =
        some (divFramesOf ((b - lb) * fps) n)) ∧
    (∀ (y : ℚ) (n : ℕ) (d₁ d₂ : ℤ),
      d₁ ∈ divFramesOf y n → d₂ ∈ divFramesOf y n → |d₁ - d₂| ≤ 1) := by
  constructor
  · intro n fps offset s b lb feature hlb hb
    have hba : beatAny (some b) = true := by simp [beatAny, hb]
    cases hdf : s.divFrames with
    | none => simp [bsStep, hlb, hdf, hba]
    | some df => simp [bsStep, hlb, hdf, hba]
  · exact fun y n d₁ d₂ h₁ h₂ => divFramesOf_pairwise_le_one y n d₁ d₂ h₁ h₂

/-- Witness for C5 at a concrete initialized state and beat. -/
theorem c5_witness :
    (bsStep 2 1 2
        { featSum := 0, counter := 0, currentDiv := 0, divFrames := some [2, 2],
          lastBeat := some 1, beatFeatures := [0, 0] } (some 3) 0).1.divFrames =
      some (divFramesOf ((3 - 1) * 1) 2) ∧ |(1 : ℤ) - 1| ≤ 1 :=
  ⟨c5_div_frames_recomputed_each_beat.1 2 1 2 _ 3 1 0 rfl (by norm_num),
   c5_div_frames_recomputed_each_beat.2 ((3 - 1) * 1) 2 1 1
     (by norm_num [divFramesOf, npRound, List.range_succ])
     (by norm_num [divFramesOf, npRound, List.range_succ])⟩

/-! ## Theorem C6: a fully empty beat is a fatal data error -/

/-- **C6.** In batch synchronization, if every subdivision bin of a beat
receives no frames, `interpolate_missing` fails with the explicit
`ValueError` raised by `np.interp` on an empty list of sample points; the
result is never a silently zero-filled `.ok`. -/
theorem c6_all_empty_beat_fails (n featDim : ℕ) (feats : List (List (List ℚ)))
    (hn : 0 < n) (hfd : 0 < featDim) (hlen : feats.length = n)
    (hempty : ∀ row ∈ feats, row = []) :
    interpolateMissing n featDim feats =
      .error "ValueError: array of sample points is empty" := by
  have hg : ((List.range feats.length).filter fun r =>
      decide (feats.getD r [] ≠ [])) = [] := by
    rw [List.filter_eq_nil_iff]
    intro r hr
    rw [List.mem_range] at hr
    have hmem : feats.getD r [] ∈ feats := by
      rw [List.getD_eq_getElem _ _ hr]
      exact List.getElem_mem hr
    have heq : feats.getD r [] = [] := hempty _ hmem
    simp only [decide_eq_true_eq, ne_eq, not_not]
    exact heq
  simp only [interpolateMissing, hg]
  simp [hn, hfd]

/-- Witness for C6 on a concrete two-bin beat with no frames anywhere. -/
theorem c6_witness :
    0 < 2 ∧ interpolateMissing 2 1 [[], []] =
      .error "ValueError: array of sample points is empty" :=
  ⟨by decide,
   c6_all_empty_beat_fails 2 1 [[], []] (by decide) (by decide) (by decide)
     (by decide)⟩

/-! ## Theorem C7: trailing beats past the feature end -/

/-- If some beat time is within the feature duration, the trimming loop
terminates normally and drops exactly the trailing too-late beats. -/
theorem bsTrimLoop_dropWhile (dur : ℚ) (l : List ℚ)
    (h : ∃ b ∈ l, b ≤ dur) :
    bsTrimLoop dur l = .ok (l.dropWhile fun b => decide (dur < b)) := by
  induction l with
  | nil => simp at h
  | cons b rest ih =>
    by_cases hb : dur < b
    · have hrest : ∃ x ∈ rest, x ≤ dur := by
        obtain ⟨x, hx, hxle⟩ := h
        rcases List.mem_cons.mp hx with rfl | hx'
        · exact absurd hxle (not_le.mpr hb)
        · exact ⟨x, hx', hxle⟩
      rw [List.dropWhile_cons_of_pos (by simpa using hb)]
      simpa [bsTrimLoop, hb] using ih hrest
    · rw [List.dropWhile_cons_of_neg (by simpa using hb)]
      simp [bsTrimLoop, hb]

/-- **C7 (counterexample).** The claim fails when every beat's timestamp
exceeds the feature duration: with no features (`duration 0`) and a single
beat at 1 s, the trimming loop of `process_offline` pops all beats and then
indexes `beats[-1, 0]` of an empty array — an `IndexError`, not a normal
completion. -/
theorem c7_counterexample :
    bsTrimBeats 100 0 [1] =
      .error "IndexError: index -1 is out of bounds for axis 0 with size 0" := by
  norm_num [bsTrimBeats, bsTrimLoop, Except.map]

/-- **C7 (amended).** For every batch input in which the feature sequence is
shorter than implied by the last beat timestamp, `process_offline` discards
the trailing beats (each with a non-fatal diagnostic) and completes normally
on the remaining beats, **provided at least one beat time is within the
feature duration**; if every beat's timestamp exceeds the feature duration
the loop instead fails with an `IndexError`. -/
theorem c7_amended_trailing_beats_dropped (fps : ℚ) (numFrames : ℕ)
    (beats : List ℚ) (h : ∃ b ∈ beats, b ≤ (numFrames : ℚ) / fps) :
    ∃ kept, bsTrimBeats fps numFrames beats = .ok kept ∧ kept ≠ [] ∧
      kept.reverse =
        beats.reverse.dropWhile fun b => decide ((numFrames : ℚ) / fps < b) := by
  obtain ⟨b0, hb0, hb0le⟩ := h
  have hne : beats ≠ [] := by
    intro hnil
    rw [hnil] at hb0
    simp at hb0
  have hrev : ∃ b ∈ beats.reverse, b ≤ (numFrames : ℚ) / fps :=
    ⟨b0, List.mem_reverse.mpr hb0, hb0le⟩
  have hloop := bsTrimLoop_dropWhile ((numFrames : ℚ) / fps) beats.reverse hrev
  refine ⟨(beats.reverse.dropWhile fun b =>
      decide ((numFrames : ℚ) / fps < b)).reverse, ?_, ?_, by simp⟩
  · simp [bsTrimBeats, hne, hloop, Except.map]
  · have : beats.reverse.dropWhile (fun b => decide ((numFrames : ℚ) / fps < b)) ≠ [] := by
      rw [ne_eq, List.dropWhile_eq_nil_iff]
      push_neg
      exact ⟨b0, List.mem_reverse.mpr hb0, by simpa using hb0le⟩
    simpa using this

/-- Witness for C7's amended claim: beats `[1, 2, 3]` against 150 frames at
100 fps keeps `[1]` and drops the two trailing beats. -/
theorem c7_amended_witness :
    ∃ kept, bsTrimBeats 100 150 [1, 2, 3] = .ok kept ∧ kept ≠ [] ∧
      kept.reverse =
        [(1 : ℚ), 2, 3].reverse.dropWhile fun b => decide ((150 : ℚ) / 100 < b) :=
  c7_amended_trailing_beats_dropped 100 150 [1, 2, 3]
    ⟨1, by simp, by norm_num⟩

/-! ## Theorem C9: streaming zero-fill of missing subdivisions -/

/-- **C9.** In streaming synchronization the per-beat feature buffer is
reset to all zeros at every emitted beat; on a non-beat frame only the
subdivision being closed (if any) is overwritten; and the vector emitted at
a beat carries, at every subdivision not written by that very frame, exactly
the stored value — so a subdivision never stored since the reset is emitted
as exactly zero (never interpolated), as the concrete run in the last
conjunct shows: only 2 of the 4 frames allotted to the beat arrive before
the subdivision 1 boundary, and the emitted vector is `[5, 0]`. -/
theorem c9_streaming_missing_subdivisions_zero :
    (∀ (n : ℕ) (fps : ℚ) (offset : ℕ) (s : BSState) (beat : Option ℚ)
       (f lb : ℚ) (df : List ℤ),
      s.lastBeat = some lb → s.divFrames = some df → beatAny beat = true →
      (bsStep n fps offset s beat f).1.beatFeatures = List.replicate n 0) ∧
    (∀ (n : ℕ) (fps : ℚ) (offset : ℕ) (s : BSState) (f lb : ℚ) (df : List ℤ)
       (j : ℕ),
      s.lastBeat = some lb → s.divFrames = some df → bsStores s ≠ some j →
      (bsStep n fps offset s none f).1.beatFeatures.getD j 0 =
        s.beatFeatures.getD j 0) ∧
    (∀ (n : ℕ) (fps : ℚ) (offset : ℕ) (s : BSState) (beat : Option ℚ)
       (f lb : ℚ) (df : List ℤ),
      s.lastBeat = some lb → s.divFrames = some df → beatAny beat = true →
      ∃ v, (bsStep n fps offset s beat f).2.2 = some v ∧
        ∀ j, bsStores s ≠ some j → v.getD j 0 = s.beatFeatures.getD j 0) ∧
    (bsRun 2 1 2 (bsInit 2)
        [(some 1, 0), (some 5, 0), (none, 4), (none, 6), (some 7, 9)]).2 =
      [(none, none), (none, none), (none, none), (none, none),
        (some 7, some [5, 0])] := by
  refine ⟨?_, ?_, ?_, by
    norm_num [bsRun, bsStep, bsInit, beatAny, divFramesOf, npRound,
      List.range_succ, List.replicate, List.set]⟩
  · intro n fps offset s beat f lb df hlb hdf hba
    rw [bsStep_beat n fps offset s beat f lb df hlb hdf hba]
  · intro n fps offset s f lb df j hlb hdf hstores
    rw [bsStep_normal n fps offset s none f lb df hlb hdf rfl]
    cases hend : bsIsEndDiv s with
    | true =>
      have hcd : s.currentDiv ≠ j := by
        intro hcdj
        exact hstores (by rw [bsStores, hend, if_pos rfl, hcdj])
      simp only [hend, if_true]
      exact getD_set_ne _ _ _ _ _ hcd
    | false => simp [hend]
  · intro n fps offset s beat f lb df hlb hdf hba
    rw [bsStep_beat n fps offset s beat f lb df hlb hdf hba]
    cases hend : bsIsEndDiv s with
    | true =>
      refine ⟨_, rfl, ?_⟩
      intro j hstores
      have hcd : s.currentDiv ≠ j := by
        intro hcdj
        exact hstores (by rw [bsStores, hend, if_pos rfl, hcdj])
      simp only [hend, if_true]
      exact getD_set_ne _ _ _ _ _ hcd
    | false =>
      refine ⟨_, rfl, ?_⟩
      intro j _
      simp [hend]

/-- Witness for C9 at a concrete initialized state and beat. -/
theorem c9_witness :
    (bsStep 2 1 2
        { featSum := 0, counter := 0, currentDiv := 0, divFrames := some [2, 2],
          lastBeat := some 5, beatFeatures := [5, 0] } (some 7) 9).1.beatFeatures =
      List.replicate 2 0 :=
  c9_streaming_missing_subdivisions_zero.1 2 1 2 _ (some 7) 9 5 [2, 2] rfl rfl
    (by norm_num [beatAny])

/-! ## Theorem C10: truthiness decides presence at the streaming interfaces -/

/-- **C10.** Presence at the streaming interfaces is decided by truthiness:
a beat timestamp of exactly `0.0` behaves like the no-beat sentinel in
`BeatSyncProcessor.process_online` (same successor state, same emitted
features), and an all-zero synchronized feature vector makes
`DBNBarTrackingProcessor.process_online` skip the forward update and emit
nothing — even when a genuine beat time accompanies it. -/
theorem c10_zero_is_absent :
    (∀ (n : ℕ) (fps : ℚ) (offset : ℕ) (s : BSState) (f : ℚ),
      (bsStep n fps offset s (some 0) f).1 = (bsStep n fps offset s none f).1 ∧
      (bsStep n fps offset s (some 0) f).2.2 =
        (bsStep n fps offset s none f).2.2) ∧
    (∀ (nst : ℕ) (trans : ℕ → ℕ → ℚ) (om : List ℚ → List ℚ) (bpb : List ℕ)
       (bump rp : Bool) (st : DBNState) (beat : Option ℚ) (act : List ℚ),
      (∀ x ∈ act, x = 0) →
      dbnOnlineStep nst trans om bpb bump rp st beat act =
        ({ st with counter := st.counter + 1 }, none)) := by
  constructor
  · intro n fps offset s f
    have h0 : beatAny (some 0) = false := by simp [beatAny]
    have h1 : beatAny none = false := rfl
    cases hlb : s.lastBeat with
    | none => simp [bsStep, hlb, h0, h1]
    | some lb =>
      cases hdf : s.divFrames with
      | none => simp [bsStep, hlb, hdf, h0, h1]
      | some df => simp [bsStep, hlb, hdf, h0, h1]
  · intro nst trans om bpb bump rp st beat act hz
    have hany : (act.any fun x => decide (x ≠ 0)) = false := by
      rw [List.any_eq_false]
      intro x hx
      simp only [decide_eq_true_eq, ne_eq, not_not]
      exact hz x hx
    unfold dbnOnlineStep
    rw [hany]
    simp

/-- Witness for C10's gated DBN step at a concrete all-zero activation. -/
theorem c10_witness :
    dbnOnlineStep 2 (fun _ _ => 1) id [2] false false (dbnInit 2) (some 3)
        [0, 0] = ({ dbnInit 2 with counter := (dbnInit 2).counter + 1 }, none) :=
  c10_zero_is_absent.2 2 (fun _ _ => 1) id [2] false false (dbnInit 2) (some 3)
    [0, 0] (by decide)

/-! ## Theorems: indexing the stacked structures -/

theorem getD_append_left {α : Type} (l₁ l₂ : List α) (i : ℕ) (d : α)
    (h : i < l₁.length) : (l₁ ++ l₂).getD i d = l₁.getD i d := by
  rw [List.getD_eq_getElem?_getD, List.getD_eq_getElem?_getD,
    List.getElem?_append_left h]

theorem getD_append_right {α : Type} (l₁ l₂ : List α) (i : ℕ) (d : α)
    (h : l₁.length ≤ i) : (l₁ ++ l₂).getD i d = l₂.getD (i - l₁.length) d := by
  rw [List.getD_eq_getElem?_getD, List.getD_eq_getElem?_getD,
    List.getElem?_append_right h]

theorem getD_map' {α β : Type} (f : α → β) (l : List α) (i : ℕ) (d : β)
    (d' : α) (hi : i < l.length) : (l.map f).getD i d = f (l.getD i d') := by
  rw [List.getD_eq_getElem _ _ (by simpa using hi), List.getElem_map,
    List.getD_eq_getElem _ _ hi]

/-- The flat concatenation of a list of lists, read at the offset of block
`p` plus `k`, is entry `k` of block `p`. -/
theorem getD_flatten {α : Type} :
    ∀ (ls : List (List α)) (p k : ℕ) (d : α), p < ls.length →
      k < (ls.getD p []).length →
      ls.flatten.getD (((ls.take p).map List.length).sum + k) d =
        (ls.getD p []).getD k d := by
  intro ls
  induction ls with
  | nil => intro p k d hp _; cases hp
  | cons hd tl ih =>
    intro p k d hp hk
    cases p with
    | zero =>
      simp only [List.take_zero, List.map_nil, List.sum_nil, Nat.zero_add,
        List.flatten_cons, List.getD_cons_zero]
      simp only [List.getD_cons_zero] at hk
      exact getD_append_left _ _ _ _ hk
    | succ p' =>
      simp only [List.take_succ_cons, List.map_cons, List.sum_cons,
        List.flatten_cons, List.getD_cons_succ]
      rw [Nat.add_assoc, getD_append_right _ _ _ _ (Nat.le_add_right _ _),
        Nat.add_sub_cancel_left]
      exact ih p' k d (Nat.lt_of_succ_lt_succ hp) (by simpa using hk)

theorem statePositions_length (bpb : List ℕ) :
    (statePositions bpb).length = bpb.sum := by
  induction bpb with
  | nil => rfl
  | cons b rest ih => simp [statePositions, List.length_range] at *; omega

theorem statePatterns_length (bpb : List ℕ) :
    (statePatterns bpb).length = bpb.sum := by
  induction bpb with
  | nil => rfl
  | cons b rest ih => simp [statePatterns, ih]

theorem sum_take_add_lt (l : List ℕ) :
    ∀ (p k : ℕ), p < l.length → k < l.getD p 0 →
      (l.take p).sum + k < l.sum := by
  induction l with
  | nil => intro p k hp _; cases hp
  | cons b rest ih =>
    intro p k hp hk
    cases p with
    | zero =>
      simp only [List.getD_cons_zero] at hk
      simp only [List.take_zero, List.sum_nil, Nat.zero_add, List.sum_cons]
      omega
    | succ p' =>
      simp only [List.take_succ_cons, List.sum_cons, List.getD_cons_succ] at *
      have := ih p' k (Nat.lt_of_succ_lt_succ hp) hk
      omega

/-- Global state `(take p).sum + k` of the concatenated enumeration carries
bar position `k`. -/
theorem statePositions_getD :
    ∀ (bpb : List ℕ) (p k : ℕ), p < bpb.length → k < bpb.getD p 0 →
      (statePositions bpb).getD ((bpb.take p).sum + k) 0 = k := by
  intro bpb
  induction bpb with
  | nil => intro p k hp _; cases hp
  | cons b rest ih =>
    intro p k hp hk
    cases p with
    | zero =>
      simp only [List.getD_cons_zero] at hk
      simp only [statePositions, List.map_cons, List.flatten_cons,
        List.take_zero, List.sum_nil, Nat.zero_add]
      rw [getD_append_left _ _ _ _ (by simpa using hk)]
      rw [List.getD_eq_getElem _ _ (by simpa using hk), List.getElem_range]
    | succ p' =>
      simp only [statePositions, List.map_cons, List.flatten_cons,
        List.take_succ_cons, List.sum_cons, List.getD_cons_succ] at *
      rw [Nat.add_assoc, getD_append_right _ _ _ _ (by simp),
        List.length_range, Nat.add_sub_cancel_left]
      exact ih p' k (Nat.lt_of_succ_lt_succ hp) hk

/-- Global state `(take p).sum + k` of the concatenated enumeration carries
pattern index `p`. -/
theorem statePatterns_getD :
    ∀ (bpb : List ℕ) (p k : ℕ), p < bpb.length → k < bpb.getD p 0 →
      (statePatterns bpb).getD ((bpb.take p).sum + k) 0 = p := by
  intro bpb
  induction bpb with
  | nil => intro p k hp _; cases hp
  | cons b rest ih =>
    intro p k hp hk
    cases p with
    | zero =>
      simp only [List.getD_cons_zero] at hk
      simp only [statePatterns, List.take_zero, List.sum_nil, Nat.zero_add]
      rw [getD_append_left _ _ _ _ (by simpa using hk)]
      simp [List.getD_eq_getElem?_getD, List.getElem?_replicate, hk]
    | succ p' =>
      simp only [statePatterns, List.take_succ_cons, List.sum_cons,
        List.getD_cons_succ] at *
      rw [Nat.add_assoc, getD_append_right _ _ _ _ (by simp),
        List.length_replicate, Nat.add_sub_cancel_left]
      have hlt : (rest.take p').sum + k < rest.sum :=
        sum_take_add_lt rest p' k (Nat.lt_of_succ_lt_succ hp) hk
      rw [getD_map' (· + 1) _ _ _ 0 (by rw [statePatterns_length]; exact hlt)]
      rw [ih p' k (Nat.lt_of_succ_lt_succ hp) hk]

/-! ## Theorems: observation model columns -/

/-- `colScoresAux` succeeds when every division index is in range and every
GMM's dimensionality matches, and computes, for each beat, the running sum
of the scores of the models on the per-division feature vectors. -/
theorem colScoresAux_ok (a : NpArray) (ns fd nb : ℕ) :
    ∀ (col : List GmmModel) (bd₀ : ℕ), bd₀ + col.length ≤ ns →
      (∀ g ∈ col, g.dim = fd) →
      colScoresAux a ns fd nb col bd₀ = .ok ((List.range nb).map fun b =>
        ((List.range col.length).map fun j =>
          (col.getD j default).score (featVec a ns fd b (bd₀ + j))).sum) := by
  intro col
  induction col with
  | nil =>
    intro bd₀ _ _
    simp only [colScoresAux, List.length_nil, List.range_zero, List.map_nil,
      List.sum_nil]
    rw [List.map_const', List.length_range]
  | cons g rest ih =>
    intro bd₀ hle hdim
    have hbd : bd₀ < ns := by
      simp only [List.length_cons] at hle
      omega
    have hgdim : fd = g.dim := (hdim g (List.mem_cons_self g rest)).symm
    rw [colScoresAux, if_pos hbd, if_pos hgdim,
      ih (bd₀ + 1) (by simp only [List.length_cons] at hle; omega)
        (fun g' hg' => hdim g' (List.mem_cons_of_mem _ hg'))]
    refine congrArg Except.ok (List.map_congr_left ?_)
    intro b hb
    rw [getD_map_range _ _ _ _ (List.mem_range.mp hb)]
    rw [List.length_cons, List.range_succ_eq_map, List.map_cons, List.sum_cons,
      List.map_map]
    refine congrArg₂ (· + ·) (by simp) ?_
    refine congrArg List.sum (List.map_congr_left ?_)
    intro j _
    simp only [Function.comp_apply, List.getD_cons_succ]
    rw [show bd₀ + (j + 1) = bd₀ + 1 + j by omega]

/-- `allCols` succeeds under the same conditions, one output column per
stacked density model. -/
theorem allCols_ok (a : NpArray) (ns fd nb : ℕ) :
    ∀ (cols : List (List GmmModel)),
      (∀ col ∈ cols, col.length ≤ ns ∧ ∀ g ∈ col, g.dim = fd) →
      allCols a ns fd nb cols = .ok (cols.map fun col =>
        (List.range nb).map fun b =>
          ((List.range col.length).map fun j =>
            (col.getD j default).score (featVec a ns fd b j)).sum) := by
  intro cols
  induction cols with
  | nil => intro _; rfl
  | cons col rest ih =>
    intro h
    have hcol := h col (List.mem_cons_self col rest)
    rw [allCols, colScoresAux_ok a ns fd nb col 0 (by simpa using hcol.1) hcol.2,
      ih fun c hc => h c (List.mem_cons_of_mem _ hc)]
    simp only [Nat.zero_add]
    rfl

/-- `allCols` propagates the library's dimensionality error as soon as a
first density model with a mismatched input dimension is scored. -/
theorem allCols_dim_error (a : NpArray) (ns fd nb D : ℕ) (hns : 0 < ns)
    (hD : D ≠ fd) :
    ∀ (cols : List (List GmmModel)),
      (∀ col ∈ cols, ∀ g ∈ col, g.dim = D) → (∃ col ∈ cols, col ≠ []) →
      allCols a ns fd nb cols =
        .error "ValueError: X has a different number of features than the fitted model" := by
  intro cols
  induction cols with
  | nil => intro _ hex; simp at hex
  | cons col rest ih =>
    intro hdims hex
    cases col with
    | nil =>
      have hex' : ∃ c ∈ rest, c ≠ [] := by
        obtain ⟨c, hc, hcne⟩ := hex
        rcases List.mem_cons.mp hc with rfl | hc'
        · exact absurd rfl hcne
        · exact ⟨c, hc', hcne⟩
      rw [allCols, colScoresAux,
        ih (fun c hc => hdims c (List.mem_cons_of_mem _ hc)) hex']
      rfl
    | cons g gs =>
      have hg : g.dim = D :=
        hdims _ (List.mem_cons_self _ _) g (List.mem_cons_self _ _)
      have hne : ¬(fd = g.dim) := by
        rw [hg]
        exact fun h => hD h.symm
      rw [allCols, colScoresAux, if_pos hns, if_neg hne]
      rfl

theorem getD_zip {α β : Type} (l₁ : List α) (l₂ : List β) (i : ℕ)
    (d₁ : α) (d₂ : β) (h₁ : i < l₁.length) (h₂ : i < l₂.length) :
    (l₁.zip l₂).getD i (d₁, d₂) = (l₁.getD i d₁, l₂.getD i d₂) := by
  rw [List.getD_eq_getElem _ _ (by rw [List.length_zip]; omega),
    List.getElem_zip, List.getD_eq_getElem _ _ h₁, List.getD_eq_getElem _ _ h₂]

/-! ## Theorem C8: shape errors of the observation model -/

/-- **C8.** `GMMDownBeatTrackingObservationModel.log_densities` rejects
every input that is not rank-3 with the explicit shape `ValueError` of
lines 731–733, and a rank-3 input whose feature dimensionality differs from
the loaded density models' dimensionality fails with the library's shape
error at the first scored model; in both cases the result is an error and no
log-density matrix is emitted. -/
theorem c8_observation_shape_rejection :
    (∀ (gmms : List (List (List GmmModel))) (a : NpArray),
      a.shape.length ≠ 3 →
      logDensitiesCols gmms a =
        .error "ValueError: Got observations shape, expected (n_beats, n_subdivisions, feat_dim)") ∧
    (∀ (gmms : List (List (List GmmModel))) (a : NpArray) (nb ns fd D : ℕ),
      a.shape = [nb, ns, fd] → 0 < ns → D ≠ fd →
      (∀ pat ∈ gmms, ∀ col ∈ pat, ∀ g ∈ col, g.dim = D) →
      (∃ pat ∈ gmms, ∃ col ∈ pat, col ≠ []) →
      logDensitiesCols gmms a =
        .error "ValueError: X has a different number of features than the fitted model") := by
  constructor
  · intro gmms a hsh
    obtain ⟨shape, data⟩ := a
    simp only [NpArray.mk.injEq] at hsh ⊢
    rcases shape with _ | ⟨x, _ | ⟨y, _ | ⟨z, rest⟩⟩⟩
    · rfl
    · rfl
    · rfl
    · cases rest with
      | nil => simp at hsh
      | cons r rs => rfl
  · intro gmms a nb ns fd D hsh hns hD hdims hex
    have hflatDims : ∀ col ∈ gmms.flatten, ∀ g ∈ col, g.dim = D := by
      intro col hc
      obtain ⟨pat, hpat, hcol⟩ := List.mem_flatten.mp hc
      exact hdims pat hpat col hcol
    have hflatEx : ∃ col ∈ gmms.flatten, col ≠ [] := by
      obtain ⟨pat, hpat, col, hcol, hcne⟩ := hex
      exact ⟨col, List.mem_flatten_of_mem hpat hcol, hcne⟩
    obtain ⟨shape, data⟩ := a
    simp only at hsh
    subst hsh
    exact allCols_dim_error _ ns fd nb D hns hD gmms.flatten hflatDims hflatEx

/-- Witness for C8: a rank-1 input and a rank-3 input scored against a
2-dimensional model with 1-dimensional features are both rejected. -/
theorem c8_witness :
    logDensitiesCols [] { shape := [2], data := [] } =
      .error "ValueError: Got observations shape, expected (n_beats, n_subdivisions, feat_dim)" ∧
    logDensitiesCols [[[{ dim := 2, score := fun _ => 0 }]]]
        { shape := [1, 1, 1], data := [0] } =
      .error "ValueError: X has a different number of features than the fitted model" :=
  ⟨c8_observation_shape_rejection.1 [] { shape := [2], data := [] } (by decide),
   c8_observation_shape_rejection.2 [[[{ dim := 2, score := fun _ => 0 }]]]
     { shape := [1, 1, 1], data := [0] } 1 1 1 2 rfl (by decide) (by decide)
     (by
       intro pat hp col hc g hg
       rw [List.mem_singleton] at hp
       subst hp
       rw [List.mem_singleton] at hc
       subst hc
       rw [List.mem_singleton] at hg
       subst hg
       rfl)
     ⟨[[{ dim := 2, score := fun _ => 0 }]], List.mem_singleton.mpr rfl,
       [{ dim := 2, score := fun _ => 0 }], List.mem_singleton.mpr rfl,
       by simp⟩⟩

/-! ## Theorem C3: pointers and per-state log-likelihoods -/

/-- **C3.** For a rank-3 observation array consistent with the loaded
density models, the log-density column addressed by the pointer of the state
with pattern `p` and position `k` — pointer `k` plus the total number of
per-beat density models of all patterns preceding `p` — holds, at beat `b`,
the sum over all subdivisions `bd` of the score of `gmms[p][k][bd]` on beat
`b`'s subdivision-`bd` feature vector. -/
theorem c3_log_densities_pointer_sum (gmms : List (List (List GmmModel)))
    (a : NpArray) (nb ns fd p k b : ℕ) (hsh : a.shape = [nb, ns, fd])
    (hp : p < gmms.length) (hk : k < (gmms.getD p []).length) (hb : b < nb)
    (hfit : ∀ pat ∈ gmms, ∀ col ∈ pat, col.length ≤ ns ∧ ∀ g ∈ col, g.dim = fd) :
    (gmmPointers gmms (gmms.map List.length)).getD
        (((gmms.map List.length).take p).sum + k) 0 =
      k + densitiesIdxOffset gmms p ∧
    ∃ cols, logDensitiesCols gmms a = .ok cols ∧
      (cols.getD (k + densitiesIdxOffset gmms p) []).getD b 0 =
        ((List.range ((gmms.getD p []).getD k []).length).map fun bd =>
          (((gmms.getD p []).getD k []).getD bd default).score
            (featVec a ns fd b bd)).sum := by
  have hpb : p < (gmms.map List.length).length := by simpa using hp
  have hkb : k < (gmms.map List.length).getD p 0 := by
    rw [getD_map' List.length gmms p 0 [] hp]
    exact hk
  have hidx : ((gmms.map List.length).take p).sum + k <
      (gmms.map List.length).sum :=
    sum_take_add_lt (gmms.map List.length) p k hpb hkb
  have hofs : ((gmms.map List.length).take p).sum = densitiesIdxOffset gmms p := by
    rw [densitiesIdxOffset, List.map_take]
  constructor
  · rw [gmmPointers,
      getD_map' _ _ _ 0 (0, 0)
        (by
          rw [List.length_zip, statePatterns_length, statePositions_length]
          omega),
      getD_zip _ _ _ 0 0
        (by rw [statePatterns_length]; exact hidx)
        (by rw [statePositions_length]; exact hidx),
      statePatterns_getD _ p k hpb hkb, statePositions_getD _ p k hpb hkb]
  · have hflat : ∀ col ∈ gmms.flatten, col.length ≤ ns ∧ ∀ g ∈ col, g.dim = fd := by
      intro col hc
      obtain ⟨pat, hpat, hcol⟩ := List.mem_flatten.mp hc
      exact hfit pat hpat col hcol
    obtain ⟨shape, data⟩ := a
    simp only at hsh
    subst hsh
    refine ⟨_, allCols_ok _ ns fd nb gmms.flatten hflat, ?_⟩
    have hlenflat : k + densitiesIdxOffset gmms p < gmms.flatten.length := by
      rw [List.length_flatten, ← hofs, Nat.add_comm]
      exact hidx
    rw [getD_map' _ gmms.flatten _ [] [] hlenflat]
    rw [show k + densitiesIdxOffset gmms p =
        ((gmms.take p).map List.length).sum + k by
      rw [densitiesIdxOffset, Nat.add_comm]]
    rw [getD_flatten gmms p k [] hp hk]
    rw [getD_map_range _ _ _ _ hb]

/-- Witness for C3 on a concrete two-pattern model (`beats_per_bar = [1, 2]`)
and a one-beat observation array. -/
theorem c3_witness :
    (gmmPointers [[[exampleGmm]], [[exampleGmm], [exampleGmm]]]
        (([[[exampleGmm]], [[exampleGmm], [exampleGmm]]] :
          List (List (List GmmModel))).map List.length)).getD
        ((((([[[exampleGmm]], [[exampleGmm], [exampleGmm]]] :
          List (List (List GmmModel))).map List.length)).take 1).sum + 1) 0 =
      1 + densitiesIdxOffset [[[exampleGmm]], [[exampleGmm], [exampleGmm]]] 1 ∧
    ∃ cols, logDensitiesCols [[[exampleGmm]], [[exampleGmm], [exampleGmm]]]
        { shape := [1, 1, 1], data := [7] } = .ok cols ∧
      (cols.getD
          (1 + densitiesIdxOffset [[[exampleGmm]], [[exampleGmm], [exampleGmm]]] 1)
          []).getD 0 0 =
        ((List.range ((([[[exampleGmm]], [[exampleGmm], [exampleGmm]]] :
            List (List (List GmmModel))).getD 1 []).getD 1 []).length).map
          fun bd =>
            (((([[[exampleGmm]], [[exampleGmm], [exampleGmm]]] :
              List (List (List GmmModel))).getD 1 []).getD 1 []).getD bd
              default).score
              (featVec { shape := [1, 1, 1], data := [7] } 1 1 0 bd)).sum :=
  c3_log_densities_pointer_sum [[[exampleGmm]], [[exampleGmm], [exampleGmm]]]
    { shape := [1, 1, 1], data := [7] } 1 1 1 1 1 0 rfl (by simp)
    (by simp) (by simp)
    (by
      intro pat hp col hc
      rcases List.mem_cons.mp hp with rfl | hp'
      · rw [List.mem_singleton] at hc
        subst hc
        refine ⟨by simp, ?_⟩
        intro g' hg'
        rw [List.mem_singleton] at hg'
        subst hg'
        rfl
      · rw [List.mem_singleton] at hp'
        subst hp'
        rcases List.mem_cons.mp hc with rfl | hc'
        · refine ⟨by simp, ?_⟩
          intro g' hg'
          rw [List.mem_singleton] at hg'
          subst hg'
          rfl
        · rw [List.mem_singleton] at hc'
          subst hc'
          refine ⟨by simp, ?_⟩
          intro g' hg'
          rw [List.mem_singleton] at hg'
          subst hg'
          rfl)

/-! ## Theorems: the single-pattern cycle -/

theorem statePositions_single (B : ℕ) : statePositions [B] = List.range B := by
  simp [statePositions]

theorem statePatterns_single (B : ℕ) :
    statePatterns [B] = List.replicate B 0 := by
  simp [statePatterns]

theorem getD_of_length_le {α : Type} (l : List α) (i : ℕ) (d : α)
    (h : l.length ≤ i) : l.getD i d = d := by
  rw [List.getD_eq_getElem?_getD, List.getElem?_eq_none h]
  rfl

theorem getD_replicate' {α : Type} (n i : ℕ) (a d : α) (h : i < n) :
    (List.replicate n a).getD i d = a := by
  rw [List.getD_eq_getElem?_getD, List.getElem?_replicate, if_pos h]
  rfl

theorem getD_range' (n i : ℕ) (h : i < n) : (List.range n).getD i 0 = i := by
  rw [List.getD_eq_getElem _ _ (by simpa using h), List.getElem_range]

/-- For states inside the single-pattern state space, the deterministic
transition advances the bar position by one, modulo `B`. -/
theorem cycleTrans_single (B s s' : ℕ) (hs : s < B) (hs' : s' < B) :
    cycleTrans [B] s s' = if s' = (s + 1) % B then 1 else 0 := by
  rw [cycleTrans, statePatterns_single, statePositions_single,
    getD_replicate' _ _ _ _ hs, getD_replicate' _ _ _ _ hs',
    getD_range' _ _ hs, getD_range' _ _ hs']
  simp only [List.getD_cons_zero, true_and]

/-- Every transition weight is 0 or 1. -/
theorem cycleTrans_cases (bpb : List ℕ) (s s' : ℕ) :
    cycleTrans bpb s s' = 0 ∨ cycleTrans bpb s s' = 1 := by
  rw [cycleTrans]
  by_cases h : (statePatterns bpb).getD s' 0 = (statePatterns bpb).getD s 0 ∧
      (statePositions bpb).getD s' 0 =
        ((statePositions bpb).getD s 0 + 1) % bpb.getD ((statePatterns bpb).getD s 0) 1
  · exact Or.inr (if_pos h)
  · exact Or.inl (if_neg h)

/-! ## Theorems: modular position arithmetic -/

theorem add_one_mod (B a : ℕ) : (a + 1) % B = (a % B + 1) % B := by
  conv_lhs => rw [Nat.add_mod]
  rw [Nat.mod_add_mod]
  conv_rhs => rw [Nat.add_mod]
  rw [Nat.mod_mod_of_dvd _ (dvd_refl B), Nat.mod_add_mod]

theorem pred_lt_of_pos (B y : ℕ) (hB : 0 < B) : (y + B - 1) % B < B :=
  Nat.mod_lt _ hB

/-- Predecessor of successor on the bar cycle. -/
theorem pred_succ_mod (B x : ℕ) (hB : 0 < B) (hx : x < B) :
    ((x + 1) % B + B - 1) % B = x := by
  by_cases h : x + 1 = B
  · have h1 : (x + 1) % B = 0 := by rw [h, Nat.mod_self]
    rw [h1, show 0 + B - 1 = B - 1 by omega,
      Nat.mod_eq_of_lt (show B - 1 < B by omega)]
    omega
  · have h1 : (x + 1) % B = x + 1 := Nat.mod_eq_of_lt (by omega)
    rw [h1, show x + 1 + B - 1 = x + B by omega, Nat.add_mod_right,
      Nat.mod_eq_of_lt hx]

/-- Successor of predecessor on the bar cycle. -/
theorem succ_pred_mod (B y : ℕ) (hB : 0 < B) (hy : y < B) :
    ((y + B - 1) % B + 1) % B = y := by
  by_cases h : y = 0
  · subst h
    have h1 : (0 + B - 1) % B = B - 1 := by
      rw [show 0 + B - 1 = B - 1 by omega]
      exact Nat.mod_eq_of_lt (by omega)
    rw [h1, show B - 1 + 1 = B by omega, Nat.mod_self]
  · have h1 : (y + B - 1) % B = y - 1 := by
      rw [show y + B - 1 = y - 1 + B by omega, Nat.add_mod_right]
      exact Nat.mod_eq_of_lt (by omega)
    rw [h1, show y - 1 + 1 = y by omega, Nat.mod_eq_of_lt hy]

/-! ## Theorems: range-indexed sums -/

theorem sum_map_range_eq_single (f : ℕ → ℚ) :
    ∀ (n i : ℕ), i < n → (∀ j < n, j ≠ i → f j = 0) →
      ((List.range n).map f).sum = f i := by
  intro n
  induction n with
  | zero => intro i hi; cases hi
  | succ n ih =>
    intro i hi h0
    rw [List.range_succ, List.map_append, List.sum_append]
    by_cases hin : i = n
    · subst hin
      rw [List.sum_eq_zero fun x hx => ?_]
      · simp
      · obtain ⟨j, hj, rfl⟩ := List.mem_map.mp hx
        exact h0 j (Nat.lt_succ_of_lt (List.mem_range.mp hj))
          (Nat.ne_of_lt (List.mem_range.mp hj))
    · rw [ih i (by omega) fun j hj hji => h0 j (Nat.lt_succ_of_lt hj) hji]
      simp [h0 n (Nat.lt_succ_self n) fun h => hin h.symm]

theorem sum_map_range_nonneg (f : ℕ → ℚ) (n : ℕ)
    (h : ∀ j < n, 0 ≤ f j) : 0 ≤ ((List.range n).map f).sum := by
  apply List.sum_nonneg
  intro x hx
  obtain ⟨j, hj, rfl⟩ := List.mem_map.mp hx
  exact h j (List.mem_range.mp hj)

theorem sum_map_range_pos (f : ℕ → ℚ) (n i : ℕ) (hi : i < n)
    (h : ∀ j < n, 0 ≤ f j) (hpos : 0 < f i) :
    0 < ((List.range n).map f).sum := by
  have hle : f i ≤ ((List.range n).map f).sum := by
    apply List.single_le_sum
    · intro x hx
      obtain ⟨j, hj, rfl⟩ := List.mem_map.mp hx
      exact h j (List.mem_range.mp hj)
    · exact List.mem_map.mpr ⟨i, List.mem_range.mpr hi, rfl⟩
  linarith

/-- Summing `prev · transition` over all source states picks out the single
cyclic predecessor of the target state. -/
theorem forward_trans_sum (B : ℕ) (hB : 0 < B) (prev : List ℚ) (s : ℕ)
    (hs : s < B) :
    ((List.range B).map fun t => prev.getD t 0 * cycleTrans [B] t s).sum =
      prev.getD ((s + B - 1) % B) 0 := by
  rw [sum_map_range_eq_single _ B ((s + B - 1) % B) (pred_lt_of_pos B s hB) ?_]
  · rw [cycleTrans_single B _ s (pred_lt_of_pos B s hB) hs,
      if_pos (succ_pred_mod B s hB hs).symm, mul_one]
  · intro j hj hne
    rw [cycleTrans_single B j s hj hs, if_neg ?_, mul_zero]
    intro heq
    apply hne
    rw [heq, pred_succ_mod B j hB hj]

/-! ## Theorems: one forward-filter step keeps a strict argmax -/

/-- Core step lemma: if the products `observation · cyclic-predecessor mass`
have a strict positive maximum at state `y`, then after one renormalized
forward step the distribution has length `B`, is nonnegative, and has a
strict positive maximum at `y`. -/
theorem hmmForwardStep_core (B : ℕ) (hB : 0 < B) (prev olik : List ℚ)
    (y : ℕ) (hy : y < B)
    (hnn : ∀ j, 0 ≤ prev.getD j 0) (honn : ∀ j, j < B → 0 ≤ olik.getD j 0)
    (hupos : 0 < olik.getD y 0 * prev.getD ((y + B - 1) % B) 0)
    (hudom : ∀ j, j < B → j ≠ y →
      olik.getD j 0 * prev.getD ((j + B - 1) % B) 0 <
        olik.getD y 0 * prev.getD ((y + B - 1) % B) 0) :
    (hmmForwardStep B (cycleTrans [B]) olik prev).length = B ∧
    (∀ j, 0 ≤ (hmmForwardStep B (cycleTrans [B]) olik prev).getD j 0) ∧
    0 < (hmmForwardStep B (cycleTrans [B]) olik prev).getD y 0 ∧
    (∀ j, j < B → j ≠ y →
      (hmmForwardStep B (cycleTrans [B]) olik prev).getD j 0 <
        (hmmForwardStep B (cycleTrans [B]) olik prev).getD y 0) := by
  have hunnorm : ((List.range B).map fun s => olik.getD s 0 *
      ((List.range B).map fun t => prev.getD t 0 * cycleTrans [B] t s).sum) =
      (List.range B).map fun s =>
        olik.getD s 0 * prev.getD ((s + B - 1) % B) 0 :=
    List.map_congr_left fun s hs => by
      rw [forward_trans_sum B hB prev s (List.mem_range.mp hs)]
  have hstep : hmmForwardStep B (cycleTrans [B]) olik prev =
      ((List.range B).map fun s =>
        olik.getD s 0 * prev.getD ((s + B - 1) % B) 0).map
        (fun v => v / ((List.range B).map fun s =>
          olik.getD s 0 * prev.getD ((s + B - 1) % B) 0).sum) := by
    rw [hmmForwardStep]
    rw [hunnorm]
  have htot : 0 < ((List.range B).map fun s =>
      olik.getD s 0 * prev.getD ((s + B - 1) % B) 0).sum :=
    sum_map_range_pos _ B y hy
      (fun j hj => mul_nonneg (honn j hj) (hnn _)) hupos
  have hget : ∀ j, (hmmForwardStep B (cycleTrans [B]) olik prev).getD j 0 =
      if j < B then (olik.getD j 0 * prev.getD ((j + B - 1) % B) 0) /
        ((List.range B).map fun s =>
          olik.getD s 0 * prev.getD ((s + B - 1) % B) 0).sum
      else 0 := by
    intro j
    rw [hstep]
    by_cases hj : j < B
    · rw [if_pos hj,
        getD_map' _ _ _ 0 0 (by simpa using hj), getD_map_range _ _ _ _ hj]
    · rw [if_neg hj, getD_of_length_le _ _ _ (by simp; omega)]
  refine ⟨by rw [hstep]; simp, ?_, ?_, ?_⟩
  · intro j
    rw [hget j]
    by_cases hj : j < B
    · rw [if_pos hj]
      exact div_nonneg (mul_nonneg (honn j hj) (hnn _)) (le_of_lt htot)
    · rw [if_neg hj]
  · rw [hget y, if_pos hy]
    exact div_pos hupos htot
  · intro j hj hne
    rw [hget j, hget y, if_pos hj, if_pos hy]
    exact (div_lt_div_iff_of_pos_right htot).mpr (hudom j hj hne)

/-- The first forward step from the uniform initial distribution
concentrates the strict argmax on the state favored by the observation. -/
theorem forward_first_step (B : ℕ) (hB : 0 < B) (r : ℕ) (hr : r < B)
    (olik : List ℚ) (honn : ∀ j, j < B → 0 ≤ olik.getD j 0)
    (hpos : 0 < olik.getD r 0)
    (hdom : ∀ j, j < B → j ≠ r → olik.getD j 0 < olik.getD r 0) :
    (hmmForwardStep B (cycleTrans [B]) olik (uniformInit B)).length = B ∧
    (∀ j, 0 ≤ (hmmForwardStep B (cycleTrans [B]) olik (uniformInit B)).getD j 0) ∧
    0 < (hmmForwardStep B (cycleTrans [B]) olik (uniformInit B)).getD r 0 ∧
    (∀ j, j < B → j ≠ r →
      (hmmForwardStep B (cycleTrans [B]) olik (uniformInit B)).getD j 0 <
        (hmmForwardStep B (cycleTrans [B]) olik (uniformInit B)).getD r 0) := by
  have hBq : (0 : ℚ) < 1 / (B : ℚ) := by
    apply div_pos one_pos
    exact_mod_cast hB
  have huget : ∀ j, j < B → (uniformInit B).getD j 0 = 1 / (B : ℚ) := by
    intro j hj
    exact getD_replicate' _ _ _ _ hj
  apply hmmForwardStep_core B hB (uniformInit B) olik r hr
  · intro j
    by_cases hj : j < B
    · rw [huget j hj]
      exact le_of_lt hBq
    · rw [getD_of_length_le _ _ _ (by simp [uniformInit]; omega)]
  · exact honn
  · rw [huget _ (pred_lt_of_pos B r hB)]
    exact mul_pos hpos hBq
  · intro j hj hne
    rw [huget _ (pred_lt_of_pos B r hB), huget _ (pred_lt_of_pos B j hB)]
    exact mul_lt_mul_of_pos_right (hdom j hj hne) hBq

/-- One forward step moves a strict argmax at position `x` to the cyclic
successor `(x + 1) % B` favored by the next observation. -/
theorem forward_next_step (B : ℕ) (hB : 0 < B) (prev olik : List ℚ) (x : ℕ)
    (hx : x < B) (hnn : ∀ j, 0 ≤ prev.getD j 0) (hpx : 0 < prev.getD x 0)
    (hdomp : ∀ j, j < B → j ≠ x → prev.getD j 0 < prev.getD x 0)
    (honn : ∀ j, j < B → 0 ≤ olik.getD j 0)
    (hopos : 0 < olik.getD ((x + 1) % B) 0)
    (hodom : ∀ j, j < B → j ≠ (x + 1) % B →
      olik.getD j 0 < olik.getD ((x + 1) % B) 0) :
    (hmmForwardStep B (cycleTrans [B]) olik prev).length = B ∧
    (∀ j, 0 ≤ (hmmForwardStep B (cycleTrans [B]) olik prev).getD j 0) ∧
    0 < (hmmForwardStep B (cycleTrans [B]) olik prev).getD ((x + 1) % B) 0 ∧
    (∀ j, j < B → j ≠ (x + 1) % B →
      (hmmForwardStep B (cycleTrans [B]) olik prev).getD j 0 <
        (hmmForwardStep B (cycleTrans [B]) olik prev).getD ((x + 1) % B) 0) := by
  have hpredy : (((x + 1) % B) + B - 1) % B = x := pred_succ_mod B x hB hx
  apply hmmForwardStep_core B hB prev olik ((x + 1) % B) (Nat.mod_lt _ hB)
  · exact hnn
  · exact honn
  · rw [hpredy]
    exact mul_pos hopos hpx
  · intro j hj hne
    rw [hpredy]
    have hpj : (j + B - 1) % B < B := pred_lt_of_pos B j hB
    have hpjx : (j + B - 1) % B ≠ x := by
      intro heq
      apply hne
      have := succ_pred_mod B j hB hj
      rw [heq] at this
      exact this.symm
    calc olik.getD j 0 * prev.getD ((j + B - 1) % B) 0
        ≤ olik.getD j 0 * prev.getD x 0 :=
          mul_le_mul_of_nonneg_left (le_of_lt (hdomp _ hpj hpjx)) (honn j hj)
      _ < olik.getD ((x + 1) % B) 0 * prev.getD x 0 :=
          mul_lt_mul_of_pos_right (hodom j hj hne) hpx

/-- Along a run of per-beat observations each strictly favoring the cyclic
successor position, every forward vector of the trace keeps a strict,
positive argmax at the favored position. -/
theorem hmmForwardTrace_aux (B : ℕ) (hB : 0 < B) :
    ∀ (oliks : List (List ℚ)) (prev : List ℚ) (x : ℕ), x < B →
      (∀ j, 0 ≤ prev.getD j 0) → 0 < prev.getD x 0 →
      (∀ j, j < B → j ≠ x → prev.getD j 0 < prev.getD x 0) →
      (∀ t, t < oliks.length →
        (∀ j, j < B → 0 ≤ (oliks.getD t []).getD j 0) ∧
        0 < (oliks.getD t []).getD ((x + 1 + t) % B) 0 ∧
        (∀ j, j < B → j ≠ (x + 1 + t) % B →
          (oliks.getD t []).getD j 0 <
            (oliks.getD t []).getD ((x + 1 + t) % B) 0)) →
      ∀ t, t < oliks.length →
        ((hmmForwardTrace B (cycleTrans [B]) prev oliks).getD t []).length = B ∧
        (∀ j, 0 ≤
          ((hmmForwardTrace B (cycleTrans [B]) prev oliks).getD t []).getD j 0) ∧
        0 < ((hmmForwardTrace B (cycleTrans [B]) prev oliks).getD t []).getD
          ((x + 1 + t) % B) 0 ∧
        (∀ j, j < B → j ≠ (x + 1 + t) % B →
          ((hmmForwardTrace B (cycleTrans [B]) prev oliks).getD t []).getD j 0 <
            ((hmmForwardTrace B (cycleTrans [B]) prev oliks).getD t []).getD
              ((x + 1 + t) % B) 0) := by
  intro oliks
  induction oliks with
  | nil => intro prev x _ _ _ _ _ t ht; cases ht
  | cons o os ih =>
    intro prev x hx hnn hpx hdomp hobs t ht
    have hobs0 := hobs 0 (Nat.succ_pos _)
    simp only [List.getD_cons_zero] at hobs0
    have hstep := forward_next_step B hB prev o x hx hnn hpx hdomp
      hobs0.1 hobs0.2.1 hobs0.2.2
    cases t with
    | zero =>
      simpa only [hmmForwardTrace, List.getD_cons_zero] using hstep
    | succ t' =>
      have ht' : t' < os.length := by simpa using Nat.lt_of_succ_lt_succ ht
      have hshift : ∀ u : ℕ, ((x + 1) % B + 1 + u) % B = (x + 1 + (u + 1)) % B := by
        intro u
        rw [show (x + 1) % B + 1 + u = (x + 1) % B + (1 + u) by omega,
          Nat.mod_add_mod, show x + 1 + (1 + u) = x + 1 + (u + 1) by omega]
      have hobs' : ∀ u, u < os.length →
          (∀ j, j < B → 0 ≤ (os.getD u []).getD j 0) ∧
          0 < (os.getD u []).getD (((x + 1) % B + 1 + u) % B) 0 ∧
          (∀ j, j < B → j ≠ ((x + 1) % B + 1 + u) % B →
            (os.getD u []).getD j 0 <
              (os.getD u []).getD (((x + 1) % B + 1 + u) % B) 0) := by
        intro u hu
        have := hobs (u + 1) (by simpa using Nat.succ_lt_succ hu)
        simp only [List.getD_cons_succ] at this
        rw [hshift u]
        exact this
      have := ih (hmmForwardStep B (cycleTrans [B]) o prev) ((x + 1) % B)
        (Nat.mod_lt _ hB) hstep.2.1 hstep.2.2.1 hstep.2.2.2 hobs' t' ht'
      simpa only [hmmForwardTrace, List.getD_cons_succ, hshift t'] using this

/-- From the uniform initial distribution, per-beat observations strictly
favoring the cyclic positions `(r + t) % B` give forward vectors whose
strict, positive argmax is `(r + t) % B` at every step. -/
theorem hmmForwardTrace_dominance (B : ℕ) (hB : 0 < B) (r : ℕ) (hr : r < B)
    (oliks : List (List ℚ))
    (hobs : ∀ t, t < oliks.length →
      (∀ j, j < B → 0 ≤ (oliks.getD t []).getD j 0) ∧
      0 < (oliks.getD t []).getD ((r + t) % B) 0 ∧
      (∀ j, j < B → j ≠ (r + t) % B →
        (oliks.getD t []).getD j 0 < (oliks.getD t []).getD ((r + t) % B) 0)) :
    ∀ t, t < oliks.length →
      ((hmmForwardTrace B (cycleTrans [B]) (uniformInit B) oliks).getD t []).length
          = B ∧
      (∀ j, 0 ≤ ((hmmForwardTrace B (cycleTrans [B]) (uniformInit B)
        oliks).getD t []).getD j 0) ∧
      0 < ((hmmForwardTrace B (cycleTrans [B]) (uniformInit B) oliks).getD
        t []).getD ((r + t) % B) 0 ∧
      (∀ j, j < B → j ≠ (r + t) % B →
        ((hmmForwardTrace B (cycleTrans [B]) (uniformInit B) oliks).getD
          t []).getD j 0 <
          ((hmmForwardTrace B (cycleTrans [B]) (uniformInit B) oliks).getD
            t []).getD ((r + t) % B) 0) := by
  cases oliks with
  | nil => intro t ht; cases ht
  | cons o os =>
    intro t ht
    have hobs0 := hobs 0 (Nat.succ_pos _)
    simp only [List.getD_cons_zero] at hobs0
    have hr0 : (r + 0) % B = r := by
      rw [Nat.add_zero, Nat.mod_eq_of_lt hr]
    rw [hr0] at hobs0
    have hstep := forward_first_step B hB r hr o hobs0.1 hobs0.2.1 hobs0.2.2
    cases t with
    | zero =>
      rw [show (r + 0) % B = r from hr0]
      simpa only [hmmForwardTrace, List.getD_cons_zero] using hstep
    | succ t' =>
      have ht' : t' < os.length := by simpa using Nat.lt_of_succ_lt_succ ht
      have hshift : ∀ u : ℕ, (r + 1 + u) % B = (r + (u + 1)) % B := by
        intro u
        rw [show r + 1 + u = r + (u + 1) by omega]
      have hobs' : ∀ u, u < os.length →
          (∀ j, j < B → 0 ≤ (os.getD u []).getD j 0) ∧
          0 < (os.getD u []).getD ((r + 1 + u) % B) 0 ∧
          (∀ j, j < B → j ≠ (r + 1 + u) % B →
            (os.getD u []).getD j 0 < (os.getD u []).getD ((r + 1 + u) % B) 0) := by
        intro u hu
        have := hobs (u + 1) (by simpa using Nat.succ_lt_succ hu)
        simp only [List.getD_cons_succ] at this
        rw [hshift u]
        exact this
      have := hmmForwardTrace_aux B hB os
        (hmmForwardStep B (cycleTrans [B]) o (uniformInit B)) r hr
        hstep.2.1 hstep.2.2.1 hstep.2.2.2 hobs' t' ht'
      simpa only [hmmForwardTrace, List.getD_cons_succ, hshift t'] using this

/-! ## Theorems: argmax selection -/

theorem npArgmax_lt_length : ∀ (l : List ℚ), l ≠ [] → npArgmax l < l.length
  | [], h => absurd rfl h
  | [_], _ => by simp [npArgmax]
  | x :: y :: rest, _ => by
    have ih := npArgmax_lt_length (y :: rest) (by simp)
    rw [npArgmax]
    by_cases hgt : (y :: rest).getD (npArgmax (y :: rest)) 0 > x
    · rw [if_pos hgt]
      simpa using Nat.succ_lt_succ ih
    · rw [if_neg hgt]
      simp

/-- `np.argmax` returns the index of a strict maximum. -/
theorem npArgmax_strict_max : ∀ (l : List ℚ) (i : ℕ), i < l.length →
    (∀ j, j < l.length → j ≠ i → l.getD j 0 < l.getD i 0) → npArgmax l = i
  | [], i, hi, _ => absurd hi (by simp)
  | [_], i, hi, _ => by
    simp only [List.length_singleton] at hi
    interval_cases i
    simp [npArgmax]
  | x :: y :: rest, i, hi, hdom => by
    have hne : (y :: rest) ≠ ([] : List ℚ) := by simp
    have hlt := npArgmax_lt_length (y :: rest) hne
    cases i with
    | zero =>
      have hmax : (y :: rest).getD (npArgmax (y :: rest)) 0 < x := by
        have h := hdom (npArgmax (y :: rest) + 1)
          (by simpa using Nat.succ_lt_succ hlt) (by omega)
        simpa using h
      rw [npArgmax, if_neg (not_lt.mpr (le_of_lt hmax))]
    | succ i' =>
      have hi' : i' < (y :: rest).length := by
        simpa using Nat.lt_of_succ_lt_succ hi
      have harg : npArgmax (y :: rest) = i' :=
        npArgmax_strict_max (y :: rest) i' hi' (by
          intro j hj hji
          have := hdom (j + 1) (by simpa using Nat.succ_lt_succ hj) (by omega)
          simpa using this)
      have hx : x < (y :: rest).getD i' 0 := by
        have := hdom 0 (by simp) (by omega)
        simpa using this
      rw [npArgmax, harg, if_pos (by simpa using hx)]

theorem argmaxBy_mem {α : Type} (f : α → ℚ) :
    ∀ (l : List α) (b : α), argmaxBy f l = some b → b ∈ l
  | [], b => by simp [argmaxBy]
  | a :: rest, b => by
    rw [argmaxBy]
    cases harg : argmaxBy f rest with
    | none =>
      intro h
      simp only [Option.some.injEq] at h
      subst h
      exact List.mem_cons_self _ _
    | some c =>
      show (if f c > f a then some c else some a) = some b → b ∈ a :: rest
      by_cases hgt : f c > f a
      · rw [if_pos hgt]
        intro h
        simp only [Option.some.injEq] at h
        subst h
        exact List.mem_cons_of_mem _ (argmaxBy_mem f rest c harg)
      · rw [if_neg hgt]
        intro h
        simp only [Option.some.injEq] at h
        subst h
        exact List.mem_cons_self _ _

/-- `argmaxBy` returns an element whose value is a strict maximum. -/
theorem argmaxBy_strict {α : Type} (f : α → ℚ) :
    ∀ (l : List α) (x : α), x ∈ l → (∀ z ∈ l, z ≠ x → f z < f x) →
      argmaxBy f l = some x
  | [], x, hx, _ => absurd hx (by simp)
  | a :: rest, x, hx, hdom => by
    rw [argmaxBy]
    by_cases hax : a = x
    · subst hax
      cases harg : argmaxBy f rest with
      | none => rfl
      | some c =>
        show (if f c > f a then some c else some a) = some a
        have hc : c ∈ rest := argmaxBy_mem f rest c harg
        by_cases hca : c = a
        · subst hca
          rw [if_neg (lt_irrefl (f c))]
        · have hlt := hdom c (List.mem_cons_of_mem _ hc) hca
          rw [if_neg (not_lt.mpr (le_of_lt hlt))]
    · have hxr : x ∈ rest := by
        rcases List.mem_cons.mp hx with h | h
        · exact absurd h.symm hax
        · exact h
      rw [argmaxBy_strict f rest x hxr
        fun z hz hzx => hdom z (List.mem_cons_of_mem _ hz) hzx]
      show (if f x > f a then some x else some a) = some x
      rw [if_pos (hdom a (List.mem_cons_self _ _) hax)]

/-- `allPaths nst T` enumerates exactly the length-`T` sequences of states
below `nst`. -/
theorem mem_allPaths (nst : ℕ) :
    ∀ (T : ℕ) (q : List ℕ), q ∈ allPaths nst T ↔
      (q.length = T ∧ ∀ s ∈ q, s < nst) := by
  intro T
  induction T with
  | zero =>
    intro q
    simp only [allPaths, List.mem_singleton]
    constructor
    · rintro rfl
      simp
    · rintro ⟨hlen, _⟩
      exact List.eq_nil_of_length_eq_zero hlen
  | succ T ih =>
    intro q
    simp only [allPaths, List.mem_flatten, List.mem_map, List.mem_range]
    constructor
    · rintro ⟨L, ⟨s, hs, rfl⟩, hq⟩
      obtain ⟨q', hq', rfl⟩ := List.mem_map.mp hq
      obtain ⟨hlen, hmem⟩ := (ih q').mp hq'
      refine ⟨by simp [hlen], ?_⟩
      intro z hz
      rcases List.mem_cons.mp hz with rfl | hz'
      · exact hs
      · exact hmem z hz'
    · rintro ⟨hlen, hmem⟩
      cases q with
      | nil => simp at hlen
      | cons s q' =>
        refine ⟨(allPaths nst T).map (s :: ·), ⟨s, hmem s (List.mem_cons_self _ _), rfl⟩, ?_⟩
        refine List.mem_map.mpr ⟨q', (ih q').mpr ⟨by simpa using hlen, ?_⟩, rfl⟩
        exact fun z hz => hmem z (List.mem_cons_of_mem _ hz)

/-! ## Theorems: the cyclic path -/

theorem cyclePath_length (B : ℕ) : ∀ (T x : ℕ), (cyclePath B x T).length = T := by
  intro T
  induction T with
  | zero => intro x; rfl
  | succ T ih => intro x; simp [cyclePath, ih]

theorem cyclePath_getD (B : ℕ) :
    ∀ (T x t : ℕ), t < T → (cyclePath B x T).getD t 0 = (x + t) % B := by
  intro T
  induction T with
  | zero => intro x t ht; cases ht
  | succ T ih =>
    intro x t ht
    cases t with
    | zero => simp [cyclePath]
    | succ t' =>
      rw [cyclePath, List.getD_cons_succ, ih (x + 1) t' (by omega),
        show x + 1 + t' = x + (t' + 1) by omega]

theorem cyclePath_mem_lt (B : ℕ) (hB : 0 < B) :
    ∀ (T x s : ℕ), s ∈ cyclePath B x T → s < B := by
  intro T
  induction T with
  | zero => intro x s hs; cases hs
  | succ T ih =>
    intro x s hs
    rcases List.mem_cons.mp hs with rfl | hs'
    · exact Nat.mod_lt _ hB
    · exact ih (x + 1) s hs'

/-! ## Theorems: path probabilities along and off the cycle -/

theorem obsProd_succ (oliks : List (List ℚ)) (B r t m : ℕ) :
    obsProd oliks B r t (m + 1) =
      (oliks.getD t []).getD ((r + t) % B) 0 * obsProd oliks B r (t + 1) m := by
  rw [obsProd, List.range_succ_eq_map, List.map_cons, List.prod_cons,
    List.map_map]
  refine congrArg₂ (· * ·) (by simp) ?_
  rw [obsProd]
  refine congrArg List.prod (List.map_congr_left ?_)
  intro j _
  simp only [Function.comp_apply]
  rw [show t + (j + 1) = t + 1 + j by omega]

theorem obsProd_pos (oliks : List (List ℚ)) (B r : ℕ)
    (hpos : ∀ u, u < oliks.length →
      0 < (oliks.getD u []).getD ((r + u) % B) 0) :
    ∀ (m t : ℕ), t + m ≤ oliks.length → 0 < obsProd oliks B r t m := by
  intro m
  induction m with
  | zero =>
    intro t _
    rw [obsProd]
    simp
  | succ m ih =>
    intro t ht
    rw [obsProd_succ]
    exact mul_pos (hpos t (by omega)) (ih (t + 1) (by omega))

/-- The probability contribution along the bar cycle equals the product of
the observation likelihoods (all transition factors are 1). -/
theorem chainProb_cycle_eq (B : ℕ) (hB : 0 < B) (oliks : List (List ℚ))
    (r : ℕ) : ∀ (m t : ℕ),
      chainProb (cycleTrans [B]) oliks (t + 1) ((r + t) % B)
        (cyclePath B (r + t + 1) m) = obsProd oliks B r (t + 1) m := by
  intro m
  induction m with
  | zero =>
    intro t
    rw [cyclePath, chainProb, obsProd]
    simp
  | succ m ih =>
    intro t
    rw [cyclePath, chainProb, obsProd_succ oliks B r (t + 1) m,
      cycleTrans_single B _ _ (Nat.mod_lt _ hB) (Nat.mod_lt _ hB),
      if_pos (add_one_mod B (r + t)), one_mul]
    exact congrArg₂ (· * ·) rfl (ih (t + 1))

theorem chainProb_nonneg (B : ℕ) (oliks : List (List ℚ))
    (honn : ∀ u, u < oliks.length → ∀ s, s < B →
      0 ≤ (oliks.getD u []).getD s 0) :
    ∀ (q : List ℕ) (t y : ℕ), (∀ s ∈ q, s < B) →
      t + q.length ≤ oliks.length →
      0 ≤ chainProb (cycleTrans [B]) oliks t y q := by
  intro q
  induction q with
  | nil =>
    intro t y _ _
    rw [chainProb]
    norm_num
  | cons z q' ih =>
    intro t y hq hlen
    simp only [List.length_cons] at hlen
    rw [chainProb]
    have hz : z < B := hq z (List.mem_cons_self _ _)
    refine mul_nonneg (mul_nonneg ?_ ?_)
      (ih (t + 1) z (fun s hs => hq s (List.mem_cons_of_mem _ hs)) (by omega))
    · rcases cycleTrans_cases [B] y z with h | h <;> rw [h] <;> norm_num
    · exact honn t (by omega) z hz

theorem chainProb_le (B : ℕ) (hB : 0 < B) (r : ℕ) (oliks : List (List ℚ))
    (honn : ∀ u, u < oliks.length → ∀ s, s < B →
      0 ≤ (oliks.getD u []).getD s 0)
    (hdomle : ∀ u, u < oliks.length → ∀ s, s < B →
      (oliks.getD u []).getD s 0 ≤ (oliks.getD u []).getD ((r + u) % B) 0) :
    ∀ (q : List ℕ) (t y : ℕ), (∀ s ∈ q, s < B) →
      t + q.length ≤ oliks.length →
      chainProb (cycleTrans [B]) oliks t y q ≤ obsProd oliks B r t q.length := by
  intro q
  induction q with
  | nil =>
    intro t y _ _
    rw [chainProb, List.length_nil, obsProd]
    simp
  | cons z q' ih =>
    intro t y hq hlen
    simp only [List.length_cons] at hlen
    rw [chainProb, List.length_cons, obsProd_succ]
    have hz : z < B := hq z (List.mem_cons_self _ _)
    have ht : t < oliks.length := by omega
    have h1 : cycleTrans [B] y z ≤ 1 := by
      rcases cycleTrans_cases [B] y z with h | h <;> rw [h] <;> norm_num
    have hobsnn : 0 ≤ (oliks.getD t []).getD z 0 := honn t ht z hz
    have hchainnn : 0 ≤ chainProb (cycleTrans [B]) oliks (t + 1) z q' :=
      chainProb_nonneg B oliks honn q' (t + 1) z
        (fun s hs => hq s (List.mem_cons_of_mem _ hs)) (by omega)
    have hchainle : chainProb (cycleTrans [B]) oliks (t + 1) z q' ≤
        obsProd oliks B r (t + 1) q'.length :=
      ih (t + 1) z (fun s hs => hq s (List.mem_cons_of_mem _ hs)) (by omega)
    calc cycleTrans [B] y z * (oliks.getD t []).getD z 0 *
          chainProb (cycleTrans [B]) oliks (t + 1) z q'
        ≤ 1 * (oliks.getD t []).getD z 0 *
          chainProb (cycleTrans [B]) oliks (t + 1) z q' :=
          mul_le_mul_of_nonneg_right
            (mul_le_mul_of_nonneg_right h1 hobsnn) hchainnn
      _ = (oliks.getD t []).getD z 0 *
          chainProb (cycleTrans [B]) oliks (t + 1) z q' := by ring
      _ ≤ (oliks.getD t []).getD ((r + t) % B) 0 *
          obsProd oliks B r (t + 1) q'.length :=
          mul_le_mul (hdomle t ht z hz) hchainle hchainnn
            (le_trans hobsnn (hdomle t ht z hz))

/-- A continuation that leaves the bar cycle has strictly smaller
probability contribution than the on-cycle continuation. -/
theorem chainProb_lt_of_ne (B : ℕ) (hB : 0 < B) (r : ℕ)
    (oliks : List (List ℚ))
    (honn : ∀ u, u < oliks.length → ∀ s, s < B →
      0 ≤ (oliks.getD u []).getD s 0)
    (hpos : ∀ u, u < oliks.length →
      0 < (oliks.getD u []).getD ((r + u) % B) 0)
    (hdomlt : ∀ u, u < oliks.length → ∀ s, s < B → s ≠ (r + u) % B →
      (oliks.getD u []).getD s 0 < (oliks.getD u []).getD ((r + u) % B) 0) :
    ∀ (q : List ℕ) (t : ℕ), (∀ s ∈ q, s < B) →
      t + 1 + q.length ≤ oliks.length →
      q ≠ cyclePath B (r + t + 1) q.length →
      chainProb (cycleTrans [B]) oliks (t + 1) ((r + t) % B) q <
        obsProd oliks B r (t + 1) q.length := by
  intro q
  induction q with
  | nil => intro t _ _ hne; exact absurd rfl hne
  | cons z q' ih =>
    intro t hq hlen hne
    simp only [List.length_cons] at hlen
    have hz : z < B := hq z (List.mem_cons_self _ _)
    have ht1 : t + 1 < oliks.length := by omega
    rw [chainProb, List.length_cons, obsProd_succ]
    by_cases hzstar : z = (r + t + 1) % B
    · subst hzstar
      rw [cycleTrans_single B _ _ (Nat.mod_lt _ hB) (Nat.mod_lt _ hB),
        if_pos (add_one_mod B (r + t)), one_mul]
      have hq'ne : q' ≠ cyclePath B (r + t + 1 + 1) q'.length := by
        intro heq
        apply hne
        rw [List.length_cons,
          show cyclePath B (r + t + 1) (q'.length + 1) =
            (r + t + 1) % B :: cyclePath B (r + t + 1 + 1) q'.length from rfl,
          ← heq]
      have hstep := ih (t + 1)
        (fun s hs => hq s (List.mem_cons_of_mem _ hs)) (by omega) hq'ne
      exact mul_lt_mul_of_pos_left hstep (hpos (t + 1) ht1)
    · have htrans : cycleTrans [B] ((r + t) % B) z = 0 := by
        rw [cycleTrans_single B _ _ (Nat.mod_lt _ hB) hz, if_neg ?_]
        intro heq
        apply hzstar
        rw [heq, ← add_one_mod B (r + t)]
      rw [htrans, zero_mul, zero_mul]
      exact mul_pos (hpos (t + 1) ht1)
        (obsProd_pos oliks B r hpos q'.length (t + 1 + 1) (by omega))

/-- Modelled viterbi decoding on the single-pattern cycle: with per-beat
observations strictly favoring the cyclic positions `(r + t) % B`, the
decoded maximum-probability path is exactly that cycle. -/
theorem hmmViterbi_cycle (B : ℕ) (hB : 0 < B) (r : ℕ) (hr : r < B)
    (oliks : List (List ℚ)) (hT : 0 < oliks.length)
    (honn : ∀ u, u < oliks.length → ∀ s, s < B →
      0 ≤ (oliks.getD u []).getD s 0)
    (hpos : ∀ u, u < oliks.length →
      0 < (oliks.getD u []).getD ((r + u) % B) 0)
    (hdomlt : ∀ u, u < oliks.length → ∀ s, s < B → s ≠ (r + u) % B →
      (oliks.getD u []).getD s 0 < (oliks.getD u []).getD ((r + u) % B) 0) :
    hmmViterbi B (cycleTrans [B]) oliks = cyclePath B r oliks.length := by
  have hdomle : ∀ u, u < oliks.length → ∀ s, s < B →
      (oliks.getD u []).getD s 0 ≤ (oliks.getD u []).getD ((r + u) % B) 0 := by
    intro u hu s hs
    by_cases hsr : s = (r + u) % B
    · rw [hsr]
    · exact le_of_lt (hdomlt u hu s hs hsr)
  obtain ⟨T', hTT⟩ : ∃ T', oliks.length = T' + 1 :=
    ⟨oliks.length - 1, by omega⟩
  have hr0 : (r + 0) % B = r := by rw [Nat.add_zero, Nat.mod_eq_of_lt hr]
  have hBq : (0 : ℚ) < 1 / (B : ℚ) := by
    apply div_pos one_pos
    exact_mod_cast hB
  have hhead : cyclePath B r (T' + 1) = r :: cyclePath B (r + 1) T' := by
    rw [cyclePath, Nat.mod_eq_of_lt hr]
  have hchainstar : chainProb (cycleTrans [B]) oliks 1 r
      (cyclePath B (r + 1) T') = obsProd oliks B r 1 T' := by
    have := chainProb_cycle_eq B hB oliks r T' 0
    rw [hr0] at this
    exact this
  have hobspos : 0 < obsProd oliks B r 1 T' :=
    obsProd_pos oliks B r hpos T' 1 (by omega)
  have hstarval : pathProb (cycleTrans [B]) (uniformInit B) oliks
      (cyclePath B r (T' + 1)) =
      1 / (B : ℚ) * (oliks.getD 0 []).getD r 0 * obsProd oliks B r 1 T' := by
    rw [hhead, pathProb, hchainstar, uniformInit, getD_replicate' _ _ _ _ hr]
  have hpos0 : 0 < (oliks.getD 0 []).getD r 0 := by
    have := hpos 0 (by omega)
    rw [hr0] at this
    exact this
  have hstarpos : 0 < pathProb (cycleTrans [B]) (uniformInit B) oliks
      (cyclePath B r (T' + 1)) := by
    rw [hstarval]
    exact mul_pos (mul_pos hBq hpos0) hobspos
  have hmem : cyclePath B r oliks.length ∈ allPaths B oliks.length :=
    (mem_allPaths B oliks.length _).mpr
      ⟨cyclePath_length B oliks.length r,
       fun s hs => cyclePath_mem_lt B hB oliks.length r s hs⟩
  have hdomq : ∀ q ∈ allPaths B oliks.length, q ≠ cyclePath B r oliks.length →
      pathProb (cycleTrans [B]) (uniformInit B) oliks q <
        pathProb (cycleTrans [B]) (uniformInit B) oliks
          (cyclePath B r oliks.length) := by
    intro q hq hqne
    obtain ⟨hqlen, hqmem⟩ := (mem_allPaths B oliks.length q).mp hq
    rw [hTT] at hqlen
    cases q with
    | nil => simp at hqlen
    | cons y q'' =>
      have hy : y < B := hqmem y (List.mem_cons_self _ _)
      have hq''mem : ∀ s ∈ q'', s < B :=
        fun s hs => hqmem s (List.mem_cons_of_mem _ hs)
      have hq''len : q''.length = T' := by simpa using hqlen
      rw [hTT, hstarval]
      rw [pathProb, uniformInit, getD_replicate' _ _ _ _ hy]
      by_cases hyr : y = r
      · rw [hyr]
        have hq''ne : q'' ≠ cyclePath B (r + 1) T' := by
          intro heq
          apply hqne
          rw [hyr, hTT, hhead, heq]
        have hlt : chainProb (cycleTrans [B]) oliks 1 r q'' <
            obsProd oliks B r 1 T' := by
          have := chainProb_lt_of_ne B hB r oliks honn hpos hdomlt q'' 0
            hq''mem (by omega)
            (by
              rw [hq''len]
              exact fun h => hq''ne (by rw [h]))
          rw [hr0, hq''len] at this
          exact this
        rw [mul_assoc, mul_assoc]
        exact mul_lt_mul_of_pos_left (mul_lt_mul_of_pos_left hlt hpos0) hBq
      · have hylt : (oliks.getD 0 []).getD y 0 < (oliks.getD 0 []).getD r 0 := by
          have := hdomlt 0 (by omega) y hy (by rw [hr0]; exact hyr)
          rw [hr0] at this
          exact this
        have hynn : 0 ≤ (oliks.getD 0 []).getD y 0 := honn 0 (by omega) y hy
        have hchainnn : 0 ≤ chainProb (cycleTrans [B]) oliks 1 y q'' :=
          chainProb_nonneg B oliks honn q'' 1 y hq''mem (by omega)
        have hchainle : chainProb (cycleTrans [B]) oliks 1 y q'' ≤
            obsProd oliks B r 1 T' := by
          have := chainProb_le B hB r oliks honn hdomle q'' 1 y hq''mem
            (by omega)
          rw [hq''len] at this
          exact this
        calc 1 / (B : ℚ) * (oliks.getD 0 []).getD y 0 *
              chainProb (cycleTrans [B]) oliks 1 y q''
            ≤ 1 / (B : ℚ) * (oliks.getD 0 []).getD y 0 *
              obsProd oliks B r 1 T' := by
              rw [mul_assoc, mul_assoc]
              exact mul_le_mul_of_nonneg_left
                (mul_le_mul_of_nonneg_left hchainle hynn) (le_of_lt hBq)
          _ < 1 / (B : ℚ) * (oliks.getD 0 []).getD r 0 *
              obsProd oliks B r 1 T' := by
              rw [mul_assoc, mul_assoc]
              apply mul_lt_mul_of_pos_left _ hBq
              exact mul_lt_mul_of_pos_right hylt hobspos
  rw [hmmViterbi,
    argmaxBy_strict (pathProb (cycleTrans [B]) (uniformInit B) oliks)
      (allPaths B oliks.length) (cyclePath B r oliks.length) hmem hdomq]
  rfl

/-! ## Theorem C2: offline decoding of the 4-beat bar -/

/-- **C2.** For a one-pattern state space with `beats_per_bar = 4` and a
4-row log-density matrix whose rows strictly favor the bar positions in
increasing order (the 4 inter-beat intervals of 5 beats), batch decoding
emits beat number `position + 1` for each state on the Viterbi path and
appends one extra final beat wrapped with the pattern's beats-per-bar:
the emitted beat numbers are `[1, 2, 3, 4, 1]`. -/
theorem c2_offline_beat_numbers (oliks : List (List ℚ))
    (hlen : oliks.length = 4)
    (honn : ∀ u, u < 4 → ∀ s, s < 4 → 0 ≤ (oliks.getD u []).getD s 0)
    (hpos : ∀ u, u < 4 → 0 < (oliks.getD u []).getD (u % 4) 0)
    (hdom : ∀ u, u < 4 → ∀ s, s < 4 → s ≠ u % 4 →
      (oliks.getD u []).getD s 0 < (oliks.getD u []).getD (u % 4) 0) :
    dbnOfflineBeatNumbers [4] (cycleTrans [4]) oliks = [1, 2, 3, 4, 1] := by
  have hvit : hmmViterbi (numStates [4]) (cycleTrans [4]) oliks =
      cyclePath 4 0 oliks.length := by
    rw [show numStates [4] = 4 from rfl]
    apply hmmViterbi_cycle 4 (by norm_num) 0 (by norm_num) oliks (by omega)
    · intro u hu s hs
      exact honn u (by omega) s hs
    · intro u hu
      rw [Nat.zero_add]
      exact hpos u (by omega)
    · intro u hu s hs
      rw [Nat.zero_add]
      exact hdom u (by omega) s hs
  rw [dbnOfflineBeatNumbers, hvit, hlen]
  decide

/-- Witness for C2 on concrete diagonal observations strictly favoring
positions 0, 1, 2, 3 in order. -/
theorem c2_witness :
    dbnOfflineBeatNumbers [4] (cycleTrans [4])
        [[1, 0, 0, 0], [0, 1, 0, 0], [0, 0, 1, 0], [0, 0, 0, 1]] =
      [1, 2, 3, 4, 1] :=
  c2_offline_beat_numbers [[1, 0, 0, 0], [0, 1, 0, 0], [0, 0, 1, 0], [0, 0, 0, 1]]
    (by decide)
    (by
      intro u hu s hs
      interval_cases u <;> interval_cases s <;> norm_num)
    (by
      intro u hu
      interval_cases u <;> norm_num)
    (by
      intro u hu s hs
      interval_cases u <;> interval_cases s <;> norm_num)

/-! ## Theorem C1: streaming argmax equals offline Viterbi -/

/-- One active step of the online bar tracker: the forward vector advances
by one transition+observation step and the most probable state's beat
number is emitted. -/
theorem dbnOnlineStep_active (nst : ℕ) (trans : ℕ → ℕ → ℚ)
    (om : List ℚ → List ℚ) (bpb : List ℕ) (st : DBNState) (a : List ℚ)
    (ha : (a.any fun x => decide (x ≠ 0)) = true) :
    dbnOnlineStep nst trans om bpb false false st none a =
      ({ counter := st.counter + 1,
         fwd := hmmForwardStep nst trans (om a) st.fwd },
       some [(((statePositions bpb).getD (npArgmax
         (hmmForwardStep nst trans (om a) st.fwd)) 0 + 1 : ℕ) : ℚ)]) := by
  rw [dbnOnlineStep]
  rw [ha]
  simp

/-- The records emitted by a run of the online tracker over all-active
activations are the beat numbers of the argmaxes of the forward trace. -/
theorem dbnOnlineRun_trace (nst : ℕ) (trans : ℕ → ℕ → ℚ)
    (om : List ℚ → List ℚ) (bpb : List ℕ) :
    ∀ (acts : List (List ℚ)) (st : DBNState),
      (∀ a ∈ acts, (a.any fun x => decide (x ≠ 0)) = true) →
      ∀ t, t < acts.length →
        (dbnOnlineRun nst trans om bpb false false st
          (acts.map fun a => (none, a))).2.getD t none =
          some [(((statePositions bpb).getD (npArgmax
            ((hmmForwardTrace nst trans st.fwd (acts.map om)).getD t []))
              0 + 1 : ℕ) : ℚ)] := by
  intro acts
  induction acts with
  | nil => intro st _ t ht; cases ht
  | cons a os ih =>
    intro st hnz t ht
    have ha := hnz a (List.mem_cons_self _ _)
    rw [List.map_cons, dbnOnlineRun,
      dbnOnlineStep_active nst trans om bpb st a ha]
    cases t with
    | zero =>
      rw [List.map_cons, hmmForwardTrace]
      rfl
    | succ t' =>
      have ht' : t' < os.length := by simpa using Nat.lt_of_succ_lt_succ ht
      have hstep := ih ⟨st.counter + 1, hmmForwardStep nst trans (om a) st.fwd⟩
        (fun x hx => hnz x (List.mem_cons_of_mem _ hx)) t' ht'
      simpa only [List.map_cons, hmmForwardTrace, List.getD_cons_succ]
        using hstep

/-- **C1.** On unambiguous input (every per-beat observation strictly
favors the next position of the bar cycle and every synchronized feature is
truthy), the per-beat argmax decision of the streaming forward filter
equals, beat for beat, the state decoded by offline Viterbi decoding, and
the streamed records carry exactly the offline-decoded beat numbers. -/
theorem c1_online_argmax_matches_viterbi (B : ℕ) (hB : 0 < B) (r : ℕ)
    (hr : r < B) (acts : List (List ℚ)) (om : List ℚ → List ℚ)
    (hnz : ∀ a ∈ acts, (a.any fun x => decide (x ≠ 0)) = true)
    (honn : ∀ u, u < acts.length → ∀ s, s < B →
      0 ≤ ((acts.map om).getD u []).getD s 0)
    (hpos : ∀ u, u < acts.length →
      0 < ((acts.map om).getD u []).getD ((r + u) % B) 0)
    (hdom : ∀ u, u < acts.length → ∀ s, s < B → s ≠ (r + u) % B →
      ((acts.map om).getD u []).getD s 0 <
        ((acts.map om).getD u []).getD ((r + u) % B) 0) :
    ∀ t, t < acts.length →
      npArgmax ((hmmForwardTrace B (cycleTrans [B]) (uniformInit B)
          (acts.map om)).getD t []) =
        (hmmViterbi B (cycleTrans [B]) (acts.map om)).getD t 0 ∧
      (dbnOnlineRun B (cycleTrans [B]) om [B] false false (dbnInit B)
          (acts.map fun a => (none, a))).2.getD t none =
        some [(((statePositions [B]).getD
          ((hmmViterbi B (cycleTrans [B]) (acts.map om)).getD t 0) 0
            + 1 : ℕ) : ℚ)] := by
  intro t ht
  have hlen' : (acts.map om).length = acts.length := by simp
  have htrace := hmmForwardTrace_dominance B hB r hr (acts.map om)
    (fun u hu => ⟨honn u (by omega) , hpos u (by omega),
      hdom u (by omega)⟩) t (by omega)
  have hargmax : npArgmax ((hmmForwardTrace B (cycleTrans [B])
      (uniformInit B) (acts.map om)).getD t []) = (r + t) % B := by
    apply npArgmax_strict_max _ ((r + t) % B)
    · rw [htrace.1]
      exact Nat.mod_lt _ hB
    · intro j hj hji
      rw [htrace.1] at hj
      exact htrace.2.2.2 j hj hji
  have hvit : hmmViterbi B (cycleTrans [B]) (acts.map om) =
      cyclePath B r (acts.map om).length :=
    hmmViterbi_cycle B hB r hr (acts.map om) (by omega)
      (fun u hu => honn u (by omega)) (fun u hu => hpos u (by omega))
      (fun u hu => hdom u (by omega))
  have hvitt : (hmmViterbi B (cycleTrans [B]) (acts.map om)).getD t 0 =
      (r + t) % B := by
    rw [hvit, cyclePath_getD B (acts.map om).length r t (by omega)]
  refine ⟨by rw [hargmax, hvitt], ?_⟩
  rw [dbnOnlineRun_trace B (cycleTrans [B]) om [B] acts (dbnInit B) hnz t ht,
    hvitt]
  rw [show (dbnInit B).fwd = uniformInit B from rfl, hargmax]

/-- Witness for C1: a single nonzero activation on the 2-position bar, with
an observation model strictly favoring position 0. -/
theorem c1_witness :
    npArgmax ((hmmForwardTrace 2 (cycleTrans [2]) (uniformInit 2)
        (([[1]] : List (List ℚ)).map fun _ => [1, 0])).getD 0 []) =
      (hmmViterbi 2 (cycleTrans [2])
        (([[1]] : List (List ℚ)).map fun _ => [1, 0])).getD 0 0 ∧
    (dbnOnlineRun 2 (cycleTrans [2]) (fun _ => [1, 0]) [2] false false
        (dbnInit 2) (([[1]] : List (List ℚ)).map fun a => (none, a))).2.getD
        0 none =
      some [(((statePositions [2]).getD
        ((hmmViterbi 2 (cycleTrans [2])
          (([[1]] : List (List ℚ)).map fun _ => [1, 0])).getD 0 0) 0
          + 1 : ℕ) : ℚ)] :=
  c1_online_argmax_matches_viterbi 2 (by norm_num) 0 (by norm_num) [[1]]
    (fun _ => [1, 0])
    (by
      intro a ha
      rw [List.mem_singleton] at ha
      subst ha
      norm_num)
    (by
      intro u hu s hs
      simp only [List.length_singleton] at hu
      interval_cases u <;> interval_cases s <;> norm_num)
    (by
      intro u hu
      simp only [List.length_singleton] at hu
      interval_cases u <;> norm_num)
    (by
      intro u hu s hs hne
      simp only [List.length_singleton] at hu
      interval_cases u <;> interval_cases s <;> first | omega | norm_num)
    0 (by norm_num)

end Madmom
